import Mathlib

/-!
TBufferedTransport (`buffed_transport.go`) and the Simple JSON protocol.

A shallow embedding of the buffering decorator of the Thrift Go transport layer.

* A Go `[]byte` is a `List Byte`; every slice made here has length = capacity
  (`make([]byte, bufferSize)`), so `len` and `cap` are both `List.length`.
* Go `int` values are `Int`.  Every sum formed by the code (`wbuf.pos+size`,
  `rbuf.pos += n`, `wbuf.pos += n`, `start += n`) is a sum of slice lengths as
  long as the underlying transport reports counts inside the slice it was
  handed, so 64-bit wrap-around is not modelled.
* The `TTransport` interface is not declared in `buffed_transport.go`; the
  underlying transport is a parameter: a record of its seven methods acting
  on a state `σ`, with errors drawn from `ε` (`none` is Go's `nil`).
* A slice-bounds panic and a `for` loop that has not ended when the fuel is
  used up are outcomes of their own (`Res.panic`, `Res.spin`).
* `calls` is a history of the calls made on the underlying transport.  It is
  not a field of the Go struct; it lets theorems speak about what the
  underlying transport was asked and what it answered.
-/

namespace Thrift

/-- One octet. -/
abbrev Byte := Fin 256

/-- Go `b[lo:hi]`; `none` is the run-time panic raised unless
`0 ≤ lo ≤ hi ≤ cap(b)`. -/
def slice (b : List Byte) (lo hi : Int) : Option (List Byte) :=
  if 0 ≤ lo ∧ lo ≤ hi ∧ hi ≤ (b.length : Int) then
    some ((b.drop lo.toNat).take (hi - lo).toNat)
  else none

/-- Go built-in `copy(dst, src)`: the count copied, `min(len(dst), len(src))`,
and the contents of `dst` afterwards. -/
def copy (dst src : List Byte) : Nat × List Byte :=
  (min dst.length src.length,
   src.take (min dst.length src.length) ++ dst.drop (min dst.length src.length))

/-- Contents of a slice after a callee was handed it: the callee may rewrite
any element, the length is the caller's. -/
def refit (given filled : List Byte) : List Byte :=
  (filled ++ given.drop filled.length).take given.length

/-- Go `type TBuffer struct { buffer []byte; pos, limit int }`. -/
structure TBuffer where
  buffer : List Byte
  pos : Int
  limit : Int
deriving DecidableEq

/-- Answer of the underlying `Read(buf)`: what it left in `buf`, the count and
the error it returned, and its own next state. -/
structure ReadReply (σ ε : Type) where
  filled : List Byte
  n : Int
  err : Option ε
  tp : σ

/-- Answer of the underlying `Write(buf)`. -/
structure WriteReply (σ ε : Type) where
  n : Int
  err : Option ε
  tp : σ

/-- The `TTransport` interface, as used by `TBufferedTransport`. -/
structure TTransport (σ ε : Type) where
  IsOpen : σ → Bool × σ
  Open : σ → Option ε × σ
  Close : σ → Option ε × σ
  Read : σ → List Byte → ReadReply σ ε
  Write : σ → List Byte → WriteReply σ ε
  Flush : σ → Option ε × σ
  Peek : σ → Bool × σ

/-- One call made on the underlying transport, with its answer. -/
inductive Call (ε : Type) where
  | IsOpen (r : Bool)
  | Open (err : Option ε)
  | Close (err : Option ε)
  | Read (given filled : List Byte) (n : Int) (err : Option ε)
  | Write (given : List Byte) (n : Int) (err : Option ε)
  | Flush (err : Option ε)
  | Peek (r : Bool)
deriving DecidableEq

/-- Go `type TBufferedTransport struct { tp TTransport; rbuf, wbuf *TBuffer }`,
with the history `calls` of the calls made on `tp` (oldest first). -/
structure TBufferedTransport (σ ε : Type) where
  tp : σ
  rbuf : TBuffer
  wbuf : TBuffer
  calls : List (Call ε)
deriving DecidableEq

/-- Outcome of a method: a normal return, a run-time panic, or a loop still
running when the fuel ran out.  Each carries the state reached. -/
inductive Res (α S : Type) where
  | ret (a : α) (s : S)
  | panic (s : S)
  | spin (s : S)
deriving DecidableEq

/-- State reached, whatever the outcome. -/
def Res.state {α S : Type} : Res α S → S
  | .ret _ s => s
  | .panic s => s
  | .spin s => s

/-- The returned value, when the method returned. -/
def Res.value {α S : Type} : Res α S → Option α
  | .ret a _ => some a
  | .panic _ => none
  | .spin _ => none

variable {σ ε : Type}

/-- Function `NewTBufferedTransport(trans, bufferSize)`; `make` panics on a negative
size (`none`). -/
def NewTBufferedTransport (trans : σ) (bufferSize : Int) :
    Option (TBufferedTransport σ ε) :=
  if bufferSize < 0 then none
  else some
    { tp := trans
      rbuf := { buffer := List.replicate bufferSize.toNat 0, pos := 0, limit := 0 }
      wbuf := { buffer := List.replicate bufferSize.toNat 0, pos := 0, limit := bufferSize }
      calls := [] }

/-- Method `IsOpen()`: `return p.tp.IsOpen()`. -/
def IsOpen (T : TTransport σ ε) (p : TBufferedTransport σ ε) :
    Res Bool (TBufferedTransport σ ε) :=
  let r := T.IsOpen p.tp
  .ret r.1 { p with tp := r.2, calls := p.calls ++ [Call.IsOpen r.1] }

/-- Method `Open()`: `return p.tp.Open()`. -/
def Open (T : TTransport σ ε) (p : TBufferedTransport σ ε) :
    Res (Option ε) (TBufferedTransport σ ε) :=
  let r := T.Open p.tp
  .ret r.1 { p with tp := r.2, calls := p.calls ++ [Call.Open r.1] }

/-- Method `Close()`: `return p.tp.Close()`. -/
def Close (T : TTransport σ ε) (p : TBufferedTransport σ ε) :
    Res (Option ε) (TBufferedTransport σ ε) :=
  let r := T.Close p.tp
  .ret r.1 { p with tp := r.2, calls := p.calls ++ [Call.Close r.1] }

/-- What `Read` hands back: the count, the error, and the caller's `buf`
after the call. -/
structure ReadRet (ε : Type) where
  n : Int
  err : Option ε
  buf : List Byte
deriving DecidableEq

/-- Lines 54-56 of `Read`: `n = copy(buf, rbuf.buffer[rbuf.pos:rbuf.limit])`,
`rbuf.pos += n`, `return n, nil`. -/
def readCopy (p : TBufferedTransport σ ε) (buf : List Byte) :
    Res (ReadRet ε) (TBufferedTransport σ ε) :=
  match slice p.rbuf.buffer p.rbuf.pos p.rbuf.limit with
  | none => .panic p
  | some src =>
    let c := copy buf src
    .ret { n := c.1, err := none, buf := c.2 }
      { p with rbuf := { p.rbuf with pos := p.rbuf.pos + c.1 } }

/-- Lines 47-49 of `Read`: `rbuf.pos = 0` and
`rbuf.limit, err = p.tp.Read(rbuf.buffer)`; the second component is `err`. -/
def refill (T : TTransport σ ε) (p : TBufferedTransport σ ε) :
    TBufferedTransport σ ε × Option ε :=
  let r := T.Read p.tp p.rbuf.buffer
  let filled := refit p.rbuf.buffer r.filled
  ({ p with
      tp := r.tp
      rbuf := { buffer := filled, pos := 0, limit := r.n }
      calls := p.calls ++ [Call.Read p.rbuf.buffer filled r.n r.err] },
   r.err)

/-- Method `Read(buf)`: refill when `rbuf.pos == rbuf.limit`, returning `0, err`
if the underlying `Read` answered an error, then copy out. -/
def Read (T : TTransport σ ε) (p : TBufferedTransport σ ε) (buf : List Byte) :
    Res (ReadRet ε) (TBufferedTransport σ ε) :=
  if p.rbuf.pos = p.rbuf.limit then
    match refill T p with
    | (p1, some e) => .ret { n := 0, err := some e, buf := buf } p1
    | (p1, none) => readCopy p1 buf
  else readCopy p buf

/-- Lines 81-82 of `Flush`: `wbuf.pos = 0` and `return p.tp.Flush()`. -/
def flushTail (T : TTransport σ ε) (p : TBufferedTransport σ ε) :
    Res (Option ε) (TBufferedTransport σ ε) :=
  let r := T.Flush p.tp
  .ret r.1
    { p with
      tp := r.2
      wbuf := { p.wbuf with pos := 0 }
      calls := p.calls ++ [Call.Flush r.1] }

/-- The `for start < wbuf.pos` loop of `Flush` from a given `start`, followed
by the tail of `Flush`.  The first argument bounds the number of iterations. -/
def flushLoop (T : TTransport σ ε) :
    Nat → Int → TBufferedTransport σ ε → Res (Option ε) (TBufferedTransport σ ε)
  | 0, start, p => if start < p.wbuf.pos then .spin p else flushTail T p
  | fuel + 1, start, p =>
    if start < p.wbuf.pos then
      match slice p.wbuf.buffer start p.wbuf.pos with
      | none => .panic p
      | some s =>
        let r := T.Write p.tp s
        let p1 := { p with tp := r.tp, calls := p.calls ++ [Call.Write s r.n r.err] }
        match r.err with
        | some e => .ret (some e) p1
        | none => flushLoop T fuel (start + r.n) p1
    else flushTail T p

/-- Method `Flush()`: the loop from `start := 0`, then the tail. -/
def Flush (T : TTransport σ ε) (fuel : Nat) (p : TBufferedTransport σ ε) :
    Res (Option ε) (TBufferedTransport σ ε) :=
  flushLoop T fuel 0 p

/-- Lines 65-67 of `Write`: `n = copy(wbuf.buffer[wbuf.pos:], buf)`,
`wbuf.pos += n`, `return n, nil`. -/
def writeCopy (p : TBufferedTransport σ ε) (buf : List Byte) :
    Res (Int × Option ε) (TBufferedTransport σ ε) :=
  match slice p.wbuf.buffer p.wbuf.pos p.wbuf.buffer.length with
  | none => .panic p
  | some dst =>
    let c := copy dst buf
    .ret ((c.1 : Int), none)
      { p with
        wbuf := { p.wbuf with
                  buffer := p.wbuf.buffer.take p.wbuf.pos.toNat ++ c.2
                  pos := p.wbuf.pos + c.1 } }

/-- Lines 61-64 of `Write`: the flush made when `wbuf.pos+size > wbuf.limit`.
The error `Flush` returns is dropped by the code; it is kept here only as the
value of this step. -/
def writeFlush (T : TTransport σ ε) (fuel : Nat) (p : TBufferedTransport σ ε)
    (buf : List Byte) : Res (Option ε) (TBufferedTransport σ ε) :=
  if p.wbuf.pos + (buf.length : Int) > p.wbuf.limit then Flush T fuel p
  else .ret none p

/-- Method `Write(buf)`: the optional flush, whose returned error is not looked
at, then the copy. -/
def Write (T : TTransport σ ε) (fuel : Nat) (p : TBufferedTransport σ ε)
    (buf : List Byte) : Res (Int × Option ε) (TBufferedTransport σ ε) :=
  match writeFlush T fuel p buf with
  | .ret _ p1 => writeCopy p1 buf
  | .panic p1 => .panic p1
  | .spin p1 => .spin p1

/-- Method `Peek()`: `||` evaluates `p.tp.Peek()` only when the left operand is
false. -/
def Peek (T : TTransport σ ε) (p : TBufferedTransport σ ε) :
    Res Bool (TBufferedTransport σ ε) :=
  if p.rbuf.pos < p.rbuf.limit then .ret true p
  else
    let r := T.Peek p.tp
    .ret r.1 { p with tp := r.2, calls := p.calls ++ [Call.Peek r.1] }

/-! ## What the underlying transport was handed and gave -/

/-- Bytes the underlying transport took in one call: the first `n` bytes of
the slice a `Write` was handed, `n` the count it answered. -/
def accepted : Call ε → List Byte
  | .Write given n _ => given.take n.toNat
  | _ => []

/-- Bytes the underlying transport received over a history of calls, in
order. -/
def sent : List (Call ε) → List Byte
  | [] => []
  | c :: cs => accepted c ++ sent cs

/-- Bytes one underlying `Read` supplied: the first `n` bytes it left in the
slice. -/
def supplied : Call ε → List Byte
  | .Read _ filled n _ => filled.take n.toNat
  | _ => []

/-- Bytes the underlying transport supplied over a history of calls, in
order. -/
def obtained : List (Call ε) → List Byte
  | [] => []
  | c :: cs => supplied c ++ obtained cs

/-- The call is a `Write`. -/
def Call.isWrite : Call ε → Bool
  | .Write _ _ _ => true
  | _ => false

/-- The error a call answered (`none` for `IsOpen` and `Peek`, which answer
no error). -/
def Call.err : Call ε → Option ε
  | .Open e => e
  | .Close e => e
  | .Read _ _ _ e => e
  | .Write _ _ e => e
  | .Flush e => e
  | .IsOpen _ => none
  | .Peek _ => none

/-- The call is a `Read`. -/
def Call.isRead : Call ε → Bool
  | .Read _ _ _ _ => true
  | _ => false

/-! ## Assumptions on the underlying transport -/

/-- Every underlying `Write` of a non-empty slice answers a count between 0
and the length of the slice, and at least 1 when it answers no error. -/
def WriteSound (T : TTransport σ ε) : Prop :=
  ∀ s sl, sl ≠ [] →
    0 ≤ (T.Write s sl).n ∧ (T.Write s sl).n ≤ (sl.length : Int) ∧
      ((T.Write s sl).err = none → 1 ≤ (T.Write s sl).n)

/-- The underlying `Write` accepts between 1 and `len(slice)` bytes of every
non-empty slice, without error. -/
def WriteAccepts (T : TTransport σ ε) : Prop :=
  ∀ s sl, sl ≠ [] →
    (T.Write s sl).err = none ∧ 1 ≤ (T.Write s sl).n ∧ (T.Write s sl).n ≤ (sl.length : Int)

/-- The underlying `Flush` never answers an error. -/
def FlushNeverFails (T : TTransport σ ε) : Prop :=
  ∀ s, (T.Flush s).1 = none

/-- Every underlying `Read` answers a count between 0 and the length of the
slice it was handed. -/
def ReadInRange (T : TTransport σ ε) : Prop :=
  ∀ s sl, 0 ≤ (T.Read s sl).n ∧ (T.Read s sl).n ≤ (sl.length : Int)

/-- The underlying `Read` never answers an error. -/
def ReadNeverFails (T : TTransport σ ε) : Prop :=
  ∀ s sl, (T.Read s sl).err = none

/-! ## Invariant, pending bytes, drivers -/

/-- The buffer invariant `0 ≤ pos ≤ limit ≤ capacity`. -/
def TBuffer.ok (b : TBuffer) : Prop :=
  0 ≤ b.pos ∧ b.pos ≤ b.limit ∧ b.limit ≤ (b.buffer.length : Int)

instance (b : TBuffer) : Decidable b.ok := by
  unfold TBuffer.ok
  infer_instance

/-- Bytes written but not yet handed to the underlying transport:
`wbuf.buffer[0:wbuf.pos]`. -/
def pending (p : TBufferedTransport σ ε) : List Byte :=
  p.wbuf.buffer.take p.wbuf.pos.toNat

/-- Bytes read ahead and not yet returned to a caller:
`rbuf.buffer[rbuf.pos:rbuf.limit]`. -/
def unread (p : TBufferedTransport σ ε) : List Byte :=
  (p.rbuf.buffer.drop p.rbuf.pos.toNat).take (p.rbuf.limit - p.rbuf.pos).toNat

/-- A caller issuing one `Write` per slice, in order, whatever the counts
returned; the value lists what each `Write` returned. -/
def writeAll (T : TTransport σ ε) (fuel : Nat) :
    TBufferedTransport σ ε → List (List Byte) →
      Res (List (Int × Option ε)) (TBufferedTransport σ ε)
  | p, [] => .ret [] p
  | p, b :: bs =>
    match Write T fuel p b with
    | .ret r p1 =>
      match writeAll T fuel p1 bs with
      | .ret rs p2 => .ret (r :: rs) p2
      | .panic s => .panic s
      | .spin s => .spin s
    | .panic s => .panic s
    | .spin s => .spin s

/-- The caller of `writeAll` ending with one `Flush`; the value is what the
`Write` calls returned and what `Flush` returned. -/
def writeAllFlush (T : TTransport σ ε) (fuel : Nat) (p : TBufferedTransport σ ε)
    (bs : List (List Byte)) :
    Res (List (Int × Option ε) × Option ε) (TBufferedTransport σ ε) :=
  match writeAll T fuel p bs with
  | .ret rs p1 =>
    match Flush T fuel p1 with
    | .ret e p2 => .ret (rs, e) p2
    | .panic s => .panic s
    | .spin s => .spin s
  | .panic s => .panic s
  | .spin s => .spin s

/-- The leading part of each slice that its `Write` reported as accepted. -/
def acceptedParts : List (List Byte) → List (Int × Option ε) → List Byte
  | b :: bs, r :: rs => b.take r.1.toNat ++ acceptedParts bs rs
  | _, _ => []

/-- A caller issuing one `Read` per caller buffer, in order; the value lists
what each `Read` returned. -/
def readAll (T : TTransport σ ε) :
    TBufferedTransport σ ε → List (List Byte) →
      Res (List (ReadRet ε)) (TBufferedTransport σ ε)
  | p, [] => .ret [] p
  | p, b :: bs =>
    match Read T p b with
    | .ret r p1 =>
      match readAll T p1 bs with
      | .ret rs p2 => .ret (r :: rs) p2
      | .panic s => .panic s
      | .spin s => .spin s
    | .panic s => .panic s
    | .spin s => .spin s

/-- Bytes returned to the caller by successive `Read` calls: the first `n`
bytes of each caller buffer, in order. -/
def returned : List (ReadRet ε) → List Byte
  | [] => []
  | r :: rs => r.buf.take r.n.toNat ++ returned rs

/-- A call a client can make on a `TBufferedTransport`. -/
inductive Op where
  | Read (buf : List Byte)
  | Write (buf : List Byte)
  | Flush
  | Peek
  | Open
  | Close
  | IsOpen

/-- State after one call, whatever its outcome (for a panic, the state at the
panic; for a loop out of fuel, the state reached). -/
def step (T : TTransport σ ε) (fuel : Nat) (p : TBufferedTransport σ ε) :
    Op → TBufferedTransport σ ε
  | .Read buf => (Read T p buf).state
  | .Write buf => (Write T fuel p buf).state
  | .Flush => (Flush T fuel p).state
  | .Peek => (Peek T p).state
  | .Open => (Open T p).state
  | .Close => (Close T p).state
  | .IsOpen => (IsOpen T p).state

/-- State after a sequence of calls. -/
def run (T : TTransport σ ε) (fuel : Nat) :
    TBufferedTransport σ ε → List Op → TBufferedTransport σ ε
  | p, [] => p
  | p, op :: ops => run T fuel (step T fuel p op) ops

/-- The invariant of a `TBufferedTransport` of capacity `c`: both buffers have
`c` bytes and satisfy `0 ≤ pos ≤ limit ≤ capacity`, and the write buffer's
limit is its capacity. -/
def Inv (c : Nat) (p : TBufferedTransport σ ε) : Prop :=
  p.rbuf.ok ∧ p.wbuf.ok ∧ p.rbuf.buffer.length = c ∧ p.wbuf.buffer.length = c ∧
    p.wbuf.limit = (c : Int)

/-! ## Example transports -/

/-- An in-memory underlying transport for worked examples.  Its state is the
bytes still to be read.  `Write` accepts at most `chunk + 1` bytes of a slice
and never fails, `Read` supplies at most `chunk + 1` bytes and answers error
`1` at the end of the input. -/
def steady (chunk : Nat) : TTransport (List Byte) Nat where
  IsOpen s := (true, s)
  Open s := (none, s)
  Close s := (none, s)
  Read s sl :=
    if s = [] ∧ sl ≠ [] then { filled := [], n := 0, err := some 1, tp := s }
    else
      { filled := s.take (min (chunk + 1) sl.length)
        n := ((min (min (chunk + 1) sl.length) s.length : Nat) : Int)
        err := none
        tp := s.drop (min (chunk + 1) sl.length) }
  Write s sl := { n := ((min (chunk + 1) sl.length : Nat) : Int), err := none, tp := s }
  Flush s := (none, s)
  Peek s := (!s.isEmpty, s)

/-- An underlying transport for worked examples whose `Write` fails.  Its state
is the number of bytes it still accepts: `Write` takes one byte per call while
that number is positive and answers error `7` once it is 0. -/
def flaky : TTransport Nat Nat where
  IsOpen s := (true, s)
  Open s := (none, s)
  Close s := (none, s)
  Read s _ := { filled := [], n := 0, err := some 1, tp := s }
  Write s sl :=
    match s with
    | 0 => { n := 0, err := some 7, tp := 0 }
    | k + 1 => { n := ((min 1 sl.length : Nat) : Int), err := none, tp := k }
  Flush s := (none, s)
  Peek s := (false, s)

/-- An endless source for worked examples.  Its state is a counter `s`; `Read`
supplies at most `chunk + 1` bytes, `s`, `s + 1`, ... (modulo 256), and never
fails; `Write` accepts the whole slice. -/
def ticker (chunk : Nat) : TTransport Nat Nat where
  IsOpen s := (true, s)
  Open s := (none, s)
  Close s := (none, s)
  Read s sl :=
    { filled := (List.range (min (chunk + 1) sl.length)).map (fun i => Fin.ofNat (s + i))
      n := ((min (chunk + 1) sl.length : Nat) : Int)
      err := none
      tp := s + min (chunk + 1) sl.length }
  Write s sl := { n := (sl.length : Int), err := none, tp := s }
  Flush s := (none, s)
  Peek s := (true, s)

/-- A state for worked examples: capacity 2, one byte (5) pending in the write
buffer, nothing read ahead. -/
def demoState : TBufferedTransport (List Byte) Nat :=
  { tp := []
    rbuf := { buffer := [0, 0], pos := 0, limit := 0 }
    wbuf := { buffer := [5, 0], pos := 1, limit := 2 }
    calls := [] }

/-- A state for worked examples: capacity 4 with the three bytes 1, 2, 3
pending in the write buffer. -/
def demoPending : TBufferedTransport (List Byte) Nat :=
  { tp := []
    rbuf := { buffer := [0, 0, 0, 0], pos := 0, limit := 0 }
    wbuf := { buffer := [1, 2, 3, 0], pos := 3, limit := 4 }
    calls := [] }

/-- A state for worked examples over `flaky`: capacity 2, the write buffer
full with the bytes 5, 6, the underlying transport still accepting `budget`
bytes. -/
def demoFull (budget : Nat) : TBufferedTransport Nat Nat :=
  { tp := budget
    rbuf := { buffer := [0, 0], pos := 0, limit := 0 }
    wbuf := { buffer := [5, 6], pos := 2, limit := 2 }
    calls := [] }

/-- Three slices for worked examples: 1,2,3 then 4,5 then 6,7,8,9. -/
def demoSlices : List (List Byte) := [[1, 2, 3], [4, 5], [6, 7, 8, 9]]

/-- A `TBufferedTransport` as `NewTBufferedTransport` builds it for a
capacity given as a natural number. -/
def fresh (trans : σ) (c : Nat) : TBufferedTransport σ ε :=
  { tp := trans
    rbuf := { buffer := List.replicate c 0, pos := 0, limit := 0 }
    wbuf := { buffer := List.replicate c 0, pos := 0, limit := c }
    calls := [] }

/-- The call is a `Flush`. -/
def Call.isFlush : Call ε → Bool
  | .Flush _ => true
  | _ => false

/-- The call is a `Peek`. -/
def Call.isPeek : Call ε → Bool
  | .Peek _ => true
  | _ => false

/-- An in-memory underlying transport for worked examples that hands back
what it was given: its state is the queue of bytes written and not yet read.
`Write` appends the whole slice, `Read` takes bytes from the front of the
queue (error `1` when the queue is empty and the slice is not), `Peek` tells
whether the queue holds a byte. -/
def loopback : TTransport (List Byte) Nat where
  IsOpen s := (true, s)
  Open s := (none, s)
  Close s := (none, s)
  Read s sl :=
    if s = [] ∧ sl ≠ [] then { filled := [], n := 0, err := some 1, tp := s }
    else
      { filled := s.take sl.length
        n := ((min sl.length s.length : Nat) : Int)
        err := none
        tp := s.drop sl.length }
  Write s sl := { n := (sl.length : Int), err := none, tp := s ++ sl }
  Flush s := (none, s)
  Peek s := (!s.isEmpty, s)

/-- An underlying transport for worked examples whose `Write` fails once and
then recovers.  Its state counts the `Write` calls made: the second call
(state 1) answers error `7`, every other call accepts one byte. -/
def hiccup : TTransport Nat Nat where
  IsOpen s := (true, s)
  Open s := (none, s)
  Close s := (none, s)
  Read s _ := { filled := [], n := 0, err := some 1, tp := s }
  Write s sl :=
    if s = 1 then { n := 0, err := some 7, tp := s + 1 }
    else { n := ((min 1 sl.length : Nat) : Int), err := none, tp := s + 1 }
  Flush s := (none, s)
  Peek s := (false, s)

/-- A state for worked examples over `ticker`: capacity 4, the bytes 2, 3 read
ahead and not yet returned (`pos = 1`, `limit = 3`). -/
def demoRead : TBufferedTransport Nat Nat :=
  { tp := 4
    rbuf := { buffer := [1, 2, 3, 9], pos := 1, limit := 3 }
    wbuf := { buffer := [0, 0, 0, 0], pos := 0, limit := 4 }
    calls := [] }

/-! ## The Simple JSON protocol

Of the protocol only the tests (`tsimple_json_protocol_test.go`) are among the
sources; the definitions of this section follow §4.3 to §4.5 of the
specification.  Text is a `List Char`; the finite doubles and their canonical
numeric text are parameters (`F`, `numText`), floating point being outside
this development. -/

/-- Modelled from the spec: the type tags of §3 (`TType`), which the begin
calls of the protocol take and, in the Simple JSON format, ignore. -/
inductive TType where
  | STOP | BOOL | BYTE | I16 | I32 | I64 | DOUBLE | STRING | STRUCT | MAP | SET | LIST
deriving DecidableEq

/-- Modelled from the spec: the alphabet of standard base64 (§4.5, "standard
alphabet"), position `i` holding the character of the 6-bit value `i`. -/
def base64Alphabet : List Char :=
  "ABCDEFGHIJKLMNOPQRSTUVWXYZabcdefghijklmnopqrstuvwxyz0123456789+/".toList

/-- Modelled from the spec: the base64 character of a 6-bit value. -/
def base64Char (i : Nat) : Char := base64Alphabet.getD i '='

/-- Modelled from the spec: the 6-bit value of a base64 character, `none` for
a character outside the alphabet. -/
def base64Index (c : Char) : Option Nat :=
  if base64Alphabet.indexOf c < 64 then some (base64Alphabet.indexOf c) else none

/-- Modelled from the spec: padded standard base64 encoding (§4.5 `Binary`):
three bytes give four characters, a last group of one or two bytes is padded
with `=`. -/
def base64Encode : List Byte → List Char
  | a :: b :: c :: rest =>
    base64Char (a.val / 4) :: base64Char (a.val % 4 * 16 + b.val / 16) ::
      base64Char (b.val % 16 * 4 + c.val / 64) :: base64Char (c.val % 64) ::
      base64Encode rest
  | [a, b] =>
    [base64Char (a.val / 4), base64Char (a.val % 4 * 16 + b.val / 16),
      base64Char (b.val % 16 * 4), '=']
  | [a] => [base64Char (a.val / 4), base64Char (a.val % 4 * 16), '=', '=']
  | [] => []

/-- Modelled from the spec: the three bytes of four base64 characters, `none`
when one of them is outside the alphabet. -/
def decodeQuad (c0 c1 c2 c3 : Char) : Option (List Byte) :=
  match base64Index c0, base64Index c1, base64Index c2, base64Index c3 with
  | some i0, some i1, some i2, some i3 =>
    some [Fin.ofNat (i0 * 4 + i1 / 16), Fin.ofNat (i1 % 16 * 16 + i2 / 4),
      Fin.ofNat (i2 % 4 * 64 + i3)]
  | _, _, _, _ => none

/-- Modelled from the spec: the bytes of the last four characters of a base64
text, which may end in one or two `=`. -/
def decodeLast (c0 c1 c2 c3 : Char) : Option (List Byte) :=
  if c3 = '=' then
    if c2 = '=' then
      match base64Index c0, base64Index c1 with
      | some i0, some i1 => some [Fin.ofNat (i0 * 4 + i1 / 16)]
      | _, _ => none
    else
      match base64Index c0, base64Index c1, base64Index c2 with
      | some i0, some i1, some i2 =>
        some [Fin.ofNat (i0 * 4 + i1 / 16), Fin.ofNat (i1 % 16 * 16 + i2 / 4)]
      | _, _, _ => none
  else decodeQuad c0 c1 c2 c3

/-- Modelled from the spec: decoding of padded standard base64 (§4.5
`ReadBinary`), `none` on malformed input: a length that is not a multiple of
four, a character outside the alphabet, or padding before the end. -/
def base64Decode : List Char → Option (List Byte)
  | [] => some []
  | c0 :: c1 :: c2 :: c3 :: rest =>
    if rest = [] then decodeLast c0 c1 c2 c3
    else
      match decodeQuad c0 c1 c2 c3, base64Decode rest with
      | some x, some y => some (x ++ y)
      | _, _ => none
  | _ => none

/-- Modelled from the spec: JSON string escaping of one character (§4.5
`String`): quote, backslash and control characters are escaped, the rest is
passed through.  The spec does not give the form of a control escape; the
`\u00XX` form is used. -/
def escapeChar (c : Char) : List Char :=
  if c = '"' then ['\\', '"']
  else if c = '\\' then ['\\', '\\']
  else if c.toNat < 32 then
    ['\\', 'u', '0', '0', Nat.digitChar (c.toNat / 16), Nat.digitChar (c.toNat % 16)]
  else [c]

/-- Modelled from the spec: JSON string escaping of a text. -/
def escape : List Char → List Char
  | [] => []
  | c :: cs => escapeChar c ++ escape cs

/-- Modelled from the spec: `JsonQuote`, the text escaped and wrapped in
quotation marks. -/
def JsonQuote (text : List Char) : List Char :=
  '"' :: escape text ++ ['"']

/-- Modelled from the spec: decimal text of an integer (§4.5): no leading
zeros, a sign only when negative. -/
def decimal (v : Int) : List Char :=
  if v < 0 then '-' :: Nat.toDigits 10 v.natAbs else Nat.toDigits 10 v.toNat

/-- Modelled from the spec: the sentinel of positive infinity (§4.3). -/
def JSON_INFINITY : List Char := "Infinity".toList

/-- Modelled from the spec: the sentinel of negative infinity (§4.3). -/
def JSON_NEGATIVE_INFINITY : List Char := "-Infinity".toList

/-- Modelled from the spec: the sentinel of not-a-number (§4.3). -/
def JSON_NAN : List Char := "NaN".toList

/-- Modelled from the spec: a double by class (§4.3): a finite value, of a
type `F` left open, or one of the three non-finite classes. -/
inductive TDouble (F : Type) where
  | finite (v : F)
  | posInf
  | negInf
  | nan

/-- Modelled from the spec: the context record of an open container (§4.5):
a list or set with its first-element flag, or a map waiting for a key (with
its first-pair flag) or for the value of the key just written. -/
inductive JSONContext where
  | list (first : Bool)
  | mapKey (first : Bool)
  | mapValue
deriving DecidableEq

/-- Modelled from the spec: the writing side of `TSimpleJSONProtocol`: the
text produced so far and the stack of open containers, innermost first. -/
structure TSimpleJSONProtocol where
  out : List Char
  ctx : List JSONContext
deriving DecidableEq

/-- Modelled from the spec: `NewTSimpleJSONProtocol`, nothing written and no
container open. -/
def NewTSimpleJSONProtocol : TSimpleJSONProtocol := { out := [], ctx := [] }

/-- Modelled from the spec: what precedes a value (§4.5): a comma before any
element of a list or set but the first and before any key of a map but the
first, a colon between a key and its value; the flag tells whether the value
stands in key position. -/
def preValue (p : TSimpleJSONProtocol) : TSimpleJSONProtocol × Bool :=
  match p.ctx with
  | [] => (p, false)
  | .list true :: cs => ({ p with ctx := .list false :: cs }, false)
  | .list false :: cs => ({ out := p.out ++ [','], ctx := .list false :: cs }, false)
  | .mapKey true :: cs => ({ p with ctx := .mapValue :: cs }, true)
  | .mapKey false :: cs => ({ out := p.out ++ [','], ctx := .mapValue :: cs }, true)
  | .mapValue :: cs => ({ out := p.out ++ [':'], ctx := .mapKey false :: cs }, false)

/-- Modelled from the spec: writing a non-string scalar whose plain text is
`text` (§4.5): unquoted, except in key position where it is a quoted
string. -/
def writeScalar (p : TSimpleJSONProtocol) (text : List Char) : TSimpleJSONProtocol :=
  let r := preValue p
  { r.1 with out := r.1.out ++ (if r.2 then JsonQuote text else text) }

/-- Modelled from the spec: writing a value that is a quoted string in every
position. -/
def writeQuoted (p : TSimpleJSONProtocol) (text : List Char) : TSimpleJSONProtocol :=
  let r := preValue p
  { r.1 with out := r.1.out ++ JsonQuote text }

/-- Modelled from the spec: `WriteI32` (§4.5), the decimal text of the
integer. -/
def WriteI32 (p : TSimpleJSONProtocol) (v : Int) : TSimpleJSONProtocol :=
  writeScalar p (decimal v)

/-- Modelled from the spec: `WriteDouble` (§4.3, §4.5): the canonical numeric
text of a finite value, the quoted sentinel of a non-finite one. -/
def WriteDouble {F : Type} (numText : F → List Char) (p : TSimpleJSONProtocol) :
    TDouble F → TSimpleJSONProtocol
  | .finite v => writeScalar p (numText v)
  | .posInf => writeQuoted p JSON_INFINITY
  | .negInf => writeQuoted p JSON_NEGATIVE_INFINITY
  | .nan => writeQuoted p JSON_NAN

/-- Modelled from the spec: `WriteBinary` (§4.5): the padded standard base64
text of the bytes, JSON-quoted. -/
def WriteBinary (p : TSimpleJSONProtocol) (b : List Byte) : TSimpleJSONProtocol :=
  writeQuoted p (base64Encode b)

/-- Modelled from the spec: `WriteListBegin` (§4.5): emit `[` and push a list
context with the first-element flag set; the declared type and count are
ignored. -/
def WriteListBegin (p : TSimpleJSONProtocol) (_elemType : TType) (_size : Int) :
    TSimpleJSONProtocol :=
  let r := preValue p
  { out := r.1.out ++ ['['], ctx := .list true :: r.1.ctx }

/-- Modelled from the spec: `WriteListEnd` (§4.5): emit `]` and pop the
context. -/
def WriteListEnd (p : TSimpleJSONProtocol) : TSimpleJSONProtocol :=
  { out := p.out ++ [']'], ctx := p.ctx.tail }

/-- Modelled from the spec: `WriteMapBegin` (§4.5): emit an opening brace and
push a map context waiting for its first key; the declared types and count are
ignored. -/
def WriteMapBegin (p : TSimpleJSONProtocol) (_keyType _valueType : TType) (_size : Int) :
    TSimpleJSONProtocol :=
  let r := preValue p
  { out := r.1.out ++ ['\x7b'], ctx := .mapKey true :: r.1.ctx }

/-- Modelled from the spec: `WriteMapEnd` (§4.5): emit a closing brace and pop
the context. -/
def WriteMapEnd (p : TSimpleJSONProtocol) : TSimpleJSONProtocol :=
  { out := p.out ++ ['\x7d'], ctx := p.ctx.tail }

/-- A writer issuing one `WriteDouble` per element, in order. -/
def writeDoubles {F : Type} (numText : F → List Char) :
    TSimpleJSONProtocol → List (TDouble F) → TSimpleJSONProtocol
  | p, [] => p
  | p, d :: ds => writeDoubles numText (WriteDouble numText p d) ds

/-- A writer issuing, for each pair in order, `WriteI32` of the key and then
`WriteDouble` of the value. -/
def writePairs {F : Type} (numText : F → List Char) :
    TSimpleJSONProtocol → List (Int × TDouble F) → TSimpleJSONProtocol
  | p, [] => p
  | p, kv :: kvs =>
    writePairs numText (WriteDouble numText (WriteI32 p kv.1) kv.2) kvs

/-- Modelled from the spec: the text of a double outside key position (§4.3):
the numeric text unquoted, the sentinels quoted. -/
def doubleText {F : Type} (numText : F → List Char) : TDouble F → List Char
  | .finite v => numText v
  | .posInf => JsonQuote JSON_INFINITY
  | .negInf => JsonQuote JSON_NEGATIVE_INFINITY
  | .nan => JsonQuote JSON_NAN

/-- Modelled from the spec: `ReadBinary` at top level (§4.5): the input must
start with a quote, the characters up to the next quote must be well formed
base64, and that quote must be there; the value is the decoded bytes and the
input left.  `none` is the failure on malformed, unquoted or cut-off input. -/
def ReadBinary (input : List Char) : Option (List Byte × List Char) :=
  match input with
  | [] => none
  | c :: rest =>
    if c = '"' then
      match rest.dropWhile (fun x => x != '"') with
      | [] => none
      | _ :: after =>
        match base64Decode (rest.takeWhile (fun x => x != '"')) with
        | some b => some (b, after)
        | none => none
    else none

/-- Texts joined by single commas, none before the first and none after the
last. -/
def commaSeparated : List (List Char) → List Char
  | [] => []
  | [t] => t
  | t :: u :: ts => t ++ ',' :: commaSeparated (u :: ts)

/-- The text of one map entry: the integer key as a quoted string, a colon,
and the value as `doubleText` gives it. -/
def pairText {F : Type} (numText : F → List Char) (kv : Int × TDouble F) : List Char :=
  ('"' :: decimal kv.1 ++ ['"']) ++ ':' :: doubleText numText kv.2

/-- Texts each preceded by a comma. -/
def commaPrefixed : List (List Char) → List Char
  | [] => []
  | t :: ts => ',' :: t ++ commaPrefixed ts

/-- Every underlying `Write` of a non-empty slice either answers an error or
accepts at least one byte of the slice. -/
def WriteFailsOrAccepts (T : TTransport σ ε) : Prop :=
  ∀ s sl, sl ≠ [] → (T.Write s sl).err = none →
    1 ≤ (T.Write s sl).n ∧ (T.Write s sl).n ≤ (sl.length : Int)

/-- The underlying `Write` answers `(0, nil)` on every non-empty slice. -/
def WriteStuck (T : TTransport σ ε) : Prop :=
  ∀ s sl, sl ≠ [] → (T.Write s sl).n = 0 ∧ (T.Write s sl).err = none

/-- The call is not a `Write` handed more than `m` bytes. -/
def Call.handedAtMost (m : Nat) : Call ε → Bool
  | .Write given _ _ => decide (given.length ≤ m)
  | _ => true

/-- An underlying transport for worked examples whose `Write` accepts nothing
and reports no error; its state counts the `Write` calls made. -/
def stuck : TTransport Nat Nat where
  IsOpen s := (true, s)
  Open s := (none, s)
  Close s := (none, s)
  Read s _ := { filled := [], n := 0, err := some 1, tp := s }
  Write s _ := { n := 0, err := none, tp := s + 1 }
  Flush s := (none, s)
  Peek s := (false, s)

/-! ## Lemmas on slices and histories -/

theorem sent_append (xs ys : List (Call ε)) : sent (xs ++ ys) = sent xs ++ sent ys := by
  induction xs with
  | nil => rfl
  | cons c cs ih => simp [sent, ih]

theorem obtained_append (xs ys : List (Call ε)) :
    obtained (xs ++ ys) = obtained xs ++ obtained ys := by
  induction xs with
  | nil => rfl
  | cons c cs ih => simp [obtained, ih]

theorem slice_nat (b : List Byte) (lo hi : Nat) (h1 : lo ≤ hi) (h2 : hi ≤ b.length) :
    slice b (lo : Int) (hi : Int) = some ((b.drop lo).take (hi - lo)) := by
  unfold slice
  have e : ((hi : Int) - (lo : Int)).toNat = hi - lo := by omega
  rw [if_pos (by omega)]
  simp [e]

theorem length_refit (given filled : List Byte) :
    (refit given filled).length = given.length := by
  unfold refit
  simp only [List.length_take, List.length_append, List.length_drop]
  omega

/-- The flush loop from cursor `a` with `b` bytes buffered, over an underlying
transport that is `WriteSound`: it returns,
after handing the underlying transport only `Write` calls; either every byte
of `buffer[a:b]` was accepted, the cursor is 0 and the underlying `Flush` was
called once and its answer returned, or an underlying `Write` answered an
error, which is returned, with a leading part of `buffer[a:b]` accepted and
the cursor unchanged. -/
theorem flushLoop_run (T : TTransport σ ε) (hS : WriteSound T) :
    ∀ (fuel a b : Nat) (p : TBufferedTransport σ ε),
      p.wbuf.pos = (b : Int) → a ≤ b → b ≤ p.wbuf.buffer.length → b - a ≤ fuel →
      ∃ ws : List (Call ε), (∀ c ∈ ws, c.isWrite = true) ∧ ws.length ≤ b - a ∧
        ((∃ s, flushLoop T fuel (a : Int) p =
              .ret (T.Flush s).1
                { p with
                  tp := (T.Flush s).2
                  wbuf := { p.wbuf with pos := 0 }
                  calls := p.calls ++ ws ++ [Call.Flush (T.Flush s).1] } ∧
            sent ws = (p.wbuf.buffer.drop a).take (b - a) ∧ (∀ c ∈ ws, c.err = none)) ∨
         (∃ e s sl k, sl ≠ [] ∧ flushLoop T fuel (a : Int) p =
              .ret (some e) { p with tp := (T.Write s sl).tp, calls := p.calls ++ ws } ∧
            (T.Write s sl).err = some e ∧ k ≤ b - a ∧
            sent ws = (p.wbuf.buffer.drop a).take k ∧
            ∃ ws0, ws = ws0 ++ [Call.Write sl (T.Write s sl).n (some e)] ∧
              ∀ c ∈ ws0, c.err = none)) := by
  intro fuel
  induction fuel with
  | zero =>
    intro a b p hb hab _ hf
    have hEq : a = b := by omega
    subst hEq
    refine ⟨[], by simp, by simp, Or.inl ⟨p.tp, ?_, by simp [sent], by simp⟩⟩
    simp [flushLoop, hb, flushTail]
  | succ fuel ih =>
    intro a b p hb hab hlen hf
    by_cases hlt : a < b
    · have hsl := slice_nat p.wbuf.buffer a b hab hlen
      have hne : (p.wbuf.buffer.drop a).take (b - a) ≠ [] := by
        intro h0
        have := congrArg List.length h0
        simp only [List.length_take, List.length_drop, List.length_nil] at this
        omega
      have hlenS : ((p.wbuf.buffer.drop a).take (b - a)).length = b - a := by
        simp only [List.length_take, List.length_drop]
        omega
      obtain ⟨hn0, hn1, hprog⟩ := hS p.tp ((p.wbuf.buffer.drop a).take (b - a)) hne
      rw [hlenS] at hn1
      cases herr : (T.Write p.tp ((p.wbuf.buffer.drop a).take (b - a))).err with
      | some e =>
        refine ⟨[Call.Write ((p.wbuf.buffer.drop a).take (b - a))
                  (T.Write p.tp ((p.wbuf.buffer.drop a).take (b - a))).n (some e)],
                by simp [Call.isWrite], by simp; omega, Or.inr ⟨e, p.tp, _,
                  (T.Write p.tp ((p.wbuf.buffer.drop a).take (b - a))).n.toNat, hne, ?_, herr,
                  by omega, ?_, [], by simp, by simp⟩⟩
        · simp [flushLoop, hb, hlt, hsl, herr]
        · simp only [sent, accepted, List.append_nil, List.take_take]
          congr 1
          omega
      | none =>
        have h1 := hprog herr
        obtain ⟨k, hk⟩ := Int.eq_ofNat_of_zero_le hn0
        have hk1 : 1 ≤ k := by omega
        have hk2 : k ≤ b - a := by omega
        obtain ⟨ws, hws, hwl, hcase⟩ := ih (a + k) b
          { p with
            tp := (T.Write p.tp ((p.wbuf.buffer.drop a).take (b - a))).tp
            calls := p.calls ++ [Call.Write ((p.wbuf.buffer.drop a).take (b - a))
                (T.Write p.tp ((p.wbuf.buffer.drop a).take (b - a))).n none] }
          hb (by omega) hlen (by omega)
        have hstep : flushLoop T (fuel + 1) (a : Int) p =
            flushLoop T fuel ((a + k : Nat) : Int)
              { p with
                tp := (T.Write p.tp ((p.wbuf.buffer.drop a).take (b - a))).tp
                calls := p.calls ++ [Call.Write ((p.wbuf.buffer.drop a).take (b - a))
                    (T.Write p.tp ((p.wbuf.buffer.drop a).take (b - a))).n none] } := by
          simp [flushLoop, hb, hlt, hsl, herr, hk]
        have hsent : ∀ m, m ≤ b - a - k →
            ((p.wbuf.buffer.drop a).take (b - a)).take k ++ (p.wbuf.buffer.drop (a + k)).take m
              = (p.wbuf.buffer.drop a).take (k + m) := by
          intro m _
          rw [List.take_take, List.take_add, List.drop_drop]
          congr 2
          omega
        refine ⟨Call.Write ((p.wbuf.buffer.drop a).take (b - a))
                  (T.Write p.tp ((p.wbuf.buffer.drop a).take (b - a))).n none :: ws,
                ?_, by simp; omega, ?_⟩
        · intro c hc
          rcases List.mem_cons.1 hc with h | h
          · subst h; rfl
          · exact hws c h
        · rcases hcase with ⟨s, hrun, hs, hne0⟩ |
            ⟨e, s, sl, j, hsne, hrun, he, hj, hs, ws0, hw0, hne0⟩
          · refine Or.inl ⟨s, ?_, ?_, ?_⟩
            · rw [hstep, hrun]; simp
            · simp only [sent, accepted, hk, Int.toNat_ofNat]
              simp only at hs
              rw [hs, hsent (b - (a + k)) (by omega)]
              congr 1
              omega
            · intro c hc
              rcases List.mem_cons.1 hc with h | h
              · subst h; rfl
              · exact hne0 c h
          · refine Or.inr ⟨e, s, sl, k + j, hsne, ?_, he, by omega, ?_,
              Call.Write ((p.wbuf.buffer.drop a).take (b - a))
                (T.Write p.tp ((p.wbuf.buffer.drop a).take (b - a))).n none :: ws0,
              by simp [hw0], ?_⟩
            · rw [hstep, hrun]; simp
            · simp only [sent, accepted, hk, Int.toNat_ofNat]
              simp only at hs
              rw [hs, hsent _ (by omega)]
            · intro c hc
              rcases List.mem_cons.1 hc with h | h
              · subst h; rfl
              · exact hne0 c h
    · have hEq : a = b := by omega
      subst hEq
      refine ⟨[], by simp, by simp, Or.inl ⟨p.tp, ?_, by simp [sent], by simp⟩⟩
      simp [flushLoop, hb, flushTail]

theorem New_eq_fresh (trans : σ) (c : Nat) :
    (NewTBufferedTransport trans (c : Int) : Option (TBufferedTransport σ ε)) =
      some (fresh trans c) := by
  simp [NewTBufferedTransport, fresh]

theorem steady_accepts (chunk : Nat) : WriteAccepts (steady chunk) := by
  intro s sl hne
  have : 1 ≤ sl.length := by
    cases sl with
    | nil => exact absurd rfl hne
    | cons x xs => simp
  refine ⟨by simp [steady], ?_, ?_⟩ <;> (simp only [steady]; omega)

theorem WriteAccepts.sound {T : TTransport σ ε} (h : WriteAccepts T) : WriteSound T := by
  intro s sl hne
  obtain ⟨_, h1, h2⟩ := h s sl hne
  exact ⟨by omega, h2, fun _ => h1⟩

theorem writeCopy_eq (p : TBufferedTransport σ ε) (buf : List Byte) (k : Nat)
    (hk : p.wbuf.pos = (k : Int)) (hle : k ≤ p.wbuf.buffer.length) :
    writeCopy p buf =
      .ret (((min (p.wbuf.buffer.length - k) buf.length : Nat) : Int), none)
        { p with
          wbuf :=
            { buffer := p.wbuf.buffer.take k ++
                (buf.take (min (p.wbuf.buffer.length - k) buf.length) ++
                  p.wbuf.buffer.drop (k + min (p.wbuf.buffer.length - k) buf.length))
              pos := ((k + min (p.wbuf.buffer.length - k) buf.length : Nat) : Int)
              limit := p.wbuf.limit } } := by
  unfold writeCopy
  rw [hk, slice_nat _ _ _ hle (le_refl _)]
  have e : List.take (p.wbuf.buffer.length - k) (List.drop k p.wbuf.buffer)
      = List.drop k p.wbuf.buffer := by
    apply List.take_of_length_le
    simp
  simp [copy, e, List.length_drop, List.drop_drop]

/-- Method `Flush` over an underlying transport that accepts every write: it returns
the answer of the one underlying `Flush` it makes, after `Write` calls that
took exactly the pending bytes. -/
theorem Flush_accepts (T : TTransport σ ε) (hA : WriteAccepts T)
    (p : TBufferedTransport σ ε) (k fuel : Nat) (hk : p.wbuf.pos = (k : Int))
    (hle : k ≤ p.wbuf.buffer.length) (hf : k ≤ fuel) :
    ∃ (ws : List (Call ε)) (s : σ),
      (∀ c ∈ ws, c.isWrite = true) ∧ ws.length ≤ k ∧
      sent ws = p.wbuf.buffer.take k ∧
      Flush T fuel p =
        .ret (T.Flush s).1
          { p with
            tp := (T.Flush s).2
            wbuf := { p.wbuf with pos := 0 }
            calls := p.calls ++ ws ++ [Call.Flush (T.Flush s).1] } := by
  obtain ⟨ws, hws, hwl, hcase⟩ :=
    flushLoop_run T hA.sound fuel 0 k p hk (Nat.zero_le _) hle (by omega)
  rcases hcase with ⟨s, hrun, hs, _⟩ | ⟨e, s, sl, j, hsl, hrun, he, _, _⟩
  · refine ⟨ws, s, hws, by omega, by simpa using hs, ?_⟩
    simpa [Flush] using hrun
  · have := (hA s sl hsl).1
    rw [this] at he
    cases he

theorem take_mid (b buf rest : List Byte) (k m : Nat) (hk : k ≤ b.length)
    (hm : m ≤ buf.length) :
    (b.take k ++ (buf.take m ++ rest)).take (k + m) = b.take k ++ buf.take m := by
  rw [← List.append_assoc]
  apply List.take_left'
  simp only [List.length_append, List.length_take]
  omega

theorem take_split (l rest : List Byte) (j t : Nat) (hj : j ≤ t) (ht : t ≤ l.length) :
    (l.take j ++ rest).take j ++ (l.drop j).take (t - j) = l.take t := by
  rw [List.take_left' (by rw [List.length_take]; omega), ← List.take_add]
  congr 1
  omega

/-- One `Write` over an underlying transport that accepts every write: it
returns a count and no error, keeps the write buffer well formed, and extends
the stream "bytes received by the underlying transport, then bytes pending"
by exactly the first `n` bytes of `buf`. -/
theorem Write_accepts (T : TTransport σ ε) (hA : WriteAccepts T)
    (p : TBufferedTransport σ ε) (buf : List Byte) (fuel : Nat)
    (hok : p.wbuf.ok) (hlim : p.wbuf.limit = (p.wbuf.buffer.length : Int))
    (hf : p.wbuf.buffer.length ≤ fuel) :
    ∃ (n : Nat) (q : TBufferedTransport σ ε),
      Write T fuel p buf = .ret ((n : Int), none) q ∧
      q.wbuf.ok ∧ q.wbuf.buffer.length = p.wbuf.buffer.length ∧
      q.wbuf.limit = p.wbuf.limit ∧ q.rbuf = p.rbuf ∧
      sent q.calls ++ pending q = sent p.calls ++ pending p ++ buf.take n ∧
      n ≤ buf.length ∧ (buf.length ≤ p.wbuf.buffer.length → n = buf.length) := by
  obtain ⟨h0, h1, h2⟩ := hok
  obtain ⟨k, hk⟩ := Int.eq_ofNat_of_zero_le h0
  have hkl : k ≤ p.wbuf.buffer.length := by omega
  unfold Write writeFlush
  by_cases hc : p.wbuf.pos + (buf.length : Int) > p.wbuf.limit
  · rw [if_pos hc]
    obtain ⟨ws, s, hws, hwl, hsent, hfl⟩ := Flush_accepts T hA p k fuel hk hkl (by omega)
    rw [hfl]
    simp only []
    rw [writeCopy_eq _ buf 0 rfl (Nat.zero_le _)]
    refine ⟨_, _, rfl, ?_, ?_, rfl, rfl, ?_, ?_, ?_⟩
    · simp only [TBuffer.ok, List.length_append, List.length_take, List.length_drop]
      omega
    · simp only [List.length_append, List.length_take, List.length_drop]
      omega
    · simp only [pending, hk, Int.toNat_ofNat, sent_append, hsent, sent, accepted,
        List.append_nil]
      rw [take_mid _ _ _ _ _ (Nat.zero_le _) (Nat.min_le_right _ _)]
      simp
    · simp
    · intro h
      simp only [Nat.sub_zero]
      omega
  · rw [if_neg hc]
    simp only []
    rw [writeCopy_eq p buf k hk hkl]
    refine ⟨_, _, rfl, ?_, ?_, rfl, rfl, ?_, ?_, ?_⟩
    · simp only [TBuffer.ok, List.length_append, List.length_take, List.length_drop]
      omega
    · simp only [List.length_append, List.length_take, List.length_drop]
      omega
    · simp only [pending, hk, Int.toNat_ofNat]
      rw [take_mid _ _ _ _ _ hkl (Nat.min_le_right _ _)]
      simp
    · simp
    · intro _
      omega

/-- Successive `Write` calls over an underlying transport that accepts every
write: all return, none with an error, and the stream "received, then
pending" grows by the parts the calls reported as accepted. -/
theorem writeAll_accepts (T : TTransport σ ε) (hA : WriteAccepts T) (fuel : Nat)
    (bs : List (List Byte)) :
    ∀ (p : TBufferedTransport σ ε), p.wbuf.ok →
      p.wbuf.limit = (p.wbuf.buffer.length : Int) → p.wbuf.buffer.length ≤ fuel →
      ∃ (rs : List (Int × Option ε)) (q : TBufferedTransport σ ε),
        writeAll T fuel p bs = .ret rs q ∧
        q.wbuf.ok ∧ q.wbuf.buffer.length = p.wbuf.buffer.length ∧
        q.wbuf.limit = p.wbuf.limit ∧ q.rbuf = p.rbuf ∧
        rs.length = bs.length ∧ (∀ r ∈ rs, r.2 = none) ∧
        sent q.calls ++ pending q = sent p.calls ++ pending p ++ acceptedParts bs rs ∧
        ((∀ b ∈ bs, b.length ≤ p.wbuf.buffer.length) →
          rs = bs.map (fun b => ((b.length : Int), none)) ∧
          acceptedParts bs rs = bs.flatten) := by
  induction bs with
  | nil =>
    intro p hok _ _
    exact ⟨[], p, rfl, hok, rfl, rfl, rfl, rfl, by simp, by simp [acceptedParts],
      fun _ => by simp [acceptedParts]⟩
  | cons b bs ih =>
    intro p hok hlim hf
    obtain ⟨n, p1, hw, hok1, hlen1, hlim1, hr1, hs1, hn, hfull⟩ :=
      Write_accepts T hA p b fuel hok hlim hf
    obtain ⟨rs, q, hrun, hokq, hlenq, hlimq, hrq, hrl, hre, hsq, hall⟩ :=
      ih p1 hok1 (by rw [hlim1, hlim, hlen1]) (by omega)
    refine ⟨((n : Int), none) :: rs, q, ?_, hokq, by omega, by rw [hlimq, hlim1],
      by rw [hrq, hr1], by simp [hrl], ?_, ?_, ?_⟩
    · simp [writeAll, hw, hrun]
    · intro r hr
      rcases List.mem_cons.1 hr with h | h
      · subst h; rfl
      · exact hre r h
    · rw [hsq, hs1]
      simp [acceptedParts]
    · intro hb
      have hb0 := hfull (hb b (List.mem_cons_self _ _))
      obtain ⟨e1, e2⟩ := hall (fun d hd => by
        rw [hlen1]
        exact hb d (List.mem_cons_of_mem _ hd))
      subst hb0
      refine ⟨by simp [e1], ?_⟩
      simp [acceptedParts, e2]

/-! ## C1: buffered writes followed by one flush -/

/-- C1, as stated, fails: with capacity 2 over an underlying transport that
accepts every byte it is handed, one `Write` of the three bytes 1, 2, 3
returns count 2 with a nil error and the following `Flush` hands the
underlying transport the bytes 1, 2 only, not the three bytes written. -/
theorem C1_counterexample :
    (NewTBufferedTransport ([] : List Byte) 2 : Option (TBufferedTransport (List Byte) Nat)) =
        some (fresh [] 2) ∧
      (writeAllFlush (steady 100) 5 (fresh [] 2) [[1, 2, 3]]).value =
        some ([(2, none)], none) ∧
      sent (writeAllFlush (steady 100) 5 (fresh [] 2) [[1, 2, 3]]).state.calls = [1, 2] ∧
      sent (writeAllFlush (steady 100) 5 (fresh [] 2) [[1, 2, 3]]).state.calls ≠
        List.flatten [[1, 2, 3]] := by
  decide

/-- C1 (amended): for every capacity `c` and every sequence of byte slices
passed to successive `Write` calls followed by one `Flush`, over an underlying
transport whose `Write` accepts between 1 and `len(slice)` bytes of every
non-empty slice without error and whose `Flush` never fails, every call
returns with a nil error and the bytes the underlying transport receives are,
in order, exactly the concatenation of the parts of the slices that the
`Write` calls reported as accepted (the first `n` bytes of each slice, `n` the
returned count); when no slice is longer than `c`, every `Write` returns the
full length and the bytes received are exactly the concatenation of the
slices. -/
theorem C1_writes_then_flush (T : TTransport σ ε) (hA : WriteAccepts T)
    (hF : FlushNeverFails T) (trans : σ) (c : Nat) (bs : List (List Byte)) (fuel : Nat)
    (hf : c ≤ fuel) (p : TBufferedTransport σ ε)
    (hp : NewTBufferedTransport trans (c : Int) = some p) :
    ∃ (rs : List (Int × Option ε)) (q : TBufferedTransport σ ε),
      writeAllFlush T fuel p bs = .ret (rs, none) q ∧
      rs.length = bs.length ∧ (∀ r ∈ rs, r.2 = none) ∧
      sent q.calls = acceptedParts bs rs ∧
      ((∀ b ∈ bs, b.length ≤ c) →
        rs = bs.map (fun b => ((b.length : Int), none)) ∧ sent q.calls = bs.flatten) := by
  rw [New_eq_fresh] at hp
  cases hp
  have hok : (fresh trans c : TBufferedTransport σ ε).wbuf.ok := by
    simp [fresh, TBuffer.ok]
  obtain ⟨rs, q1, hrun, hok1, hlen1, hlim1, _, hrl, hre, hs1, hall⟩ :=
    writeAll_accepts T hA fuel bs (fresh trans c) hok (by simp [fresh]) (by simp [fresh]; omega)
  obtain ⟨h0, h1, h2⟩ := hok1
  obtain ⟨k, hk⟩ := Int.eq_ofNat_of_zero_le h0
  have hc : (fresh trans c : TBufferedTransport σ ε).wbuf.buffer.length = c := by simp [fresh]
  obtain ⟨ws, s, _, _, hsent, hfl⟩ :=
    Flush_accepts T hA q1 k fuel hk (by omega) (by omega)
  have hstream : sent q1.calls ++ sent ws = acceptedParts bs rs := by
    have hpend : pending q1 = q1.wbuf.buffer.take k := by simp [pending, hk]
    rw [hsent, ← hpend, hs1]
    simp [fresh, pending, sent]
  refine ⟨rs,
    { q1 with
      tp := (T.Flush s).2
      wbuf := { q1.wbuf with pos := 0 }
      calls := q1.calls ++ ws ++ [Call.Flush (T.Flush s).1] }, ?_, hrl, hre, ?_, ?_⟩
  · simp only [writeAllFlush, hrun, hfl, hF s]
  · simp [sent_append, sent, accepted, hstream]
  · intro hb
    obtain ⟨e1, e2⟩ := hall (fun b hbm => by rw [hc]; exact hb b hbm)
    refine ⟨e1, ?_⟩
    simp [sent_append, sent, accepted, hstream, e2]

/-- C1 (amended), at capacity 4 over a transport taking 2 bytes per write, for
the slices 1,2,3 then 4,5 then 6,7,8,9. -/
theorem C1_writes_then_flush_witness :
    ∃ (rs : List (Int × Option Nat)) (q : TBufferedTransport (List Byte) Nat),
      writeAllFlush (steady 1) 4 (fresh [] 4) demoSlices = .ret (rs, none) q ∧
      rs.length = demoSlices.length ∧ (∀ r ∈ rs, r.2 = none) ∧
      sent q.calls = acceptedParts demoSlices rs ∧
      ((∀ b ∈ demoSlices, b.length ≤ 4) →
        rs = demoSlices.map (fun b => ((b.length : Int), none)) ∧
          sent q.calls = demoSlices.flatten) :=
  C1_writes_then_flush (steady 1) (steady_accepts 1) (fun _ => rfl) [] 4
    demoSlices 4 (le_refl 4) (fresh [] 4) (New_eq_fresh [] 4)

/-! ## C2: one read on an exhausted read buffer -/

/-- C2: when the read buffer is exhausted (`pos == limit`), `Read(buf)` makes
exactly one call on the underlying transport, a `Read` handed the whole
`rbuf.buffer`, whatever that call answers; and if it answers a count `m`
(between 0 and the capacity) with no error, `Read` returns
`n = min(len(buf), m)` with a nil error, the first `n` bytes of `buf` are the
first `n` bytes the underlying `Read` left in the buffer, the rest of `buf` is
untouched, and afterwards `pos = n` and `limit = m`. -/
theorem C2_read_exhausted (T : TTransport σ ε) (p : TBufferedTransport σ ε)
    (buf : List Byte) (hex : p.rbuf.pos = p.rbuf.limit) :
    (Read T p buf).state.calls =
        p.calls ++ [Call.Read p.rbuf.buffer
          (refit p.rbuf.buffer (T.Read p.tp p.rbuf.buffer).filled)
          (T.Read p.tp p.rbuf.buffer).n (T.Read p.tp p.rbuf.buffer).err] ∧
      (refit p.rbuf.buffer (T.Read p.tp p.rbuf.buffer).filled).length = p.rbuf.buffer.length ∧
      ∀ m : Nat, (T.Read p.tp p.rbuf.buffer).n = (m : Int) → m ≤ p.rbuf.buffer.length →
        (T.Read p.tp p.rbuf.buffer).err = none →
        ∃ q : TBufferedTransport σ ε,
          Read T p buf =
            .ret
              { n := ((min buf.length m : Nat) : Int)
                err := none
                buf := (refit p.rbuf.buffer (T.Read p.tp p.rbuf.buffer).filled).take
                      (min buf.length m) ++ buf.drop (min buf.length m) } q ∧
          q.rbuf.pos = ((min buf.length m : Nat) : Int) ∧ q.rbuf.limit = (m : Int) ∧
          q.rbuf.buffer = refit p.rbuf.buffer (T.Read p.tp p.rbuf.buffer).filled ∧
          q.wbuf = p.wbuf ∧ q.tp = (T.Read p.tp p.rbuf.buffer).tp := by
  refine ⟨?_, length_refit _ _, ?_⟩
  · unfold Read
    rw [if_pos hex]
    cases herr : (T.Read p.tp p.rbuf.buffer).err with
    | some e => simp [refill, herr, Res.state]
    | none =>
      simp only [refill, herr, readCopy]
      split <;> simp [Res.state]
  · intro m hm hle herr
    unfold Read
    rw [if_pos hex]
    simp only [refill, herr, readCopy, hm]
    have hsl := slice_nat (refit p.rbuf.buffer (T.Read p.tp p.rbuf.buffer).filled) 0 m
      (Nat.zero_le _) (by rw [length_refit]; exact hle)
    simp only [Nat.cast_zero] at hsl
    rw [hsl]
    have hl : (List.take m (refit p.rbuf.buffer (T.Read p.tp p.rbuf.buffer).filled)).length = m := by
      rw [List.length_take, length_refit]
      omega
    refine ⟨{ p with
        tp := (T.Read p.tp p.rbuf.buffer).tp
        rbuf := { buffer := refit p.rbuf.buffer (T.Read p.tp p.rbuf.buffer).filled
                  pos := ((min buf.length m : Nat) : Int)
                  limit := (m : Int) }
        calls := p.calls ++ [Call.Read p.rbuf.buffer
          (refit p.rbuf.buffer (T.Read p.tp p.rbuf.buffer).filled) (m : Int) none] },
      ?_, rfl, rfl, rfl, rfl, rfl⟩
    simp only [copy, hl, List.drop_zero, Nat.sub_zero, List.take_take]
    simp

/-- C2 at a fresh transport of capacity 4 over an input of three bytes, read
into a caller buffer of two bytes. -/
theorem C2_read_exhausted_witness :
    (fresh [10, 20, 30] 4 : TBufferedTransport (List Byte) Nat).rbuf.pos =
        (fresh [10, 20, 30] 4 : TBufferedTransport (List Byte) Nat).rbuf.limit ∧
      (Read (steady 9) (fresh [10, 20, 30] 4) [0, 0]).state.calls =
        [Call.Read [0, 0, 0, 0] [10, 20, 30, 0] 3 none] ∧
      ∃ q : TBufferedTransport (List Byte) Nat,
        Read (steady 9) (fresh [10, 20, 30] 4) [0, 0] =
          .ret { n := 2, err := none, buf := [10, 20] } q ∧
        q.rbuf.pos = 2 ∧ q.rbuf.limit = 3 ∧ q.rbuf.buffer = [10, 20, 30, 0] ∧
        q.wbuf = (fresh [10, 20, 30] 4 : TBufferedTransport (List Byte) Nat).wbuf ∧ q.tp = [] :=
  ⟨rfl, (C2_read_exhausted (steady 9) (fresh [10, 20, 30] 4) [0, 0] rfl).1,
    (C2_read_exhausted (steady 9) (fresh [10, 20, 30] 4) [0, 0] rfl).2.2 3 rfl (by decide) rfl⟩

/-! ## C3: the bytes `Read` returns are the underlying stream -/

theorem readCopy_eq (p : TBufferedTransport σ ε) (buf : List Byte) (a b : Nat)
    (ha : p.rbuf.pos = (a : Int)) (hb : p.rbuf.limit = (b : Int)) (hab : a ≤ b)
    (hlen : b ≤ p.rbuf.buffer.length) :
    readCopy p buf =
      .ret
        { n := ((min buf.length (b - a) : Nat) : Int)
          err := none
          buf := (p.rbuf.buffer.drop a).take (min buf.length (b - a)) ++
            buf.drop (min buf.length (b - a)) }
        { p with rbuf := { p.rbuf with pos := ((a + min buf.length (b - a) : Nat) : Int) } } := by
  unfold readCopy
  rw [ha, hb, slice_nat _ _ _ hab hlen]
  have hl : ((p.rbuf.buffer.drop a).take (b - a)).length = b - a := by
    simp only [List.length_take, List.length_drop]
    omega
  simp only [copy, hl, List.take_take]
  have e : min (min buf.length (b - a)) (b - a) = min buf.length (b - a) := by omega
  simp [e, ha]

/-- One `Read` over an underlying transport whose reads succeed, from a well
formed read buffer: it returns with a nil error, makes at most one underlying
call (a `Read`), and the bytes it returns followed by the bytes left unread are
the bytes unread before followed by the bytes that call supplied. -/
theorem Read_stream (T : TTransport σ ε) (hN : ReadNeverFails T) (hR : ReadInRange T)
    (p : TBufferedTransport σ ε) (buf : List Byte) (hok : p.rbuf.ok) :
    ∃ (r : ReadRet ε) (q : TBufferedTransport σ ε) (cs : List (Call ε)),
      Read T p buf = .ret r q ∧ q.rbuf.ok ∧ q.wbuf = p.wbuf ∧
      q.rbuf.buffer.length = p.rbuf.buffer.length ∧
      q.calls = p.calls ++ cs ∧ cs.length ≤ 1 ∧ (∀ c ∈ cs, c.isRead = true) ∧
      r.err = none ∧ r.buf.length = buf.length ∧
      r.buf.take r.n.toNat ++ unread q = unread p ++ obtained cs := by
  obtain ⟨h0, h1, h2⟩ := hok
  obtain ⟨a, ha⟩ := Int.eq_ofNat_of_zero_le h0
  obtain ⟨b, hb⟩ := Int.eq_ofNat_of_zero_le (le_trans h0 h1)
  have hab : a ≤ b := by omega
  have hbl : b ≤ p.rbuf.buffer.length := by omega
  unfold Read
  by_cases hex : p.rbuf.pos = p.rbuf.limit
  · rw [if_pos hex]
    obtain ⟨hm0, hm1⟩ := hR p.tp p.rbuf.buffer
    obtain ⟨m, hm⟩ := Int.eq_ofNat_of_zero_le hm0
    have hml : m ≤ p.rbuf.buffer.length := by omega
    simp only [refill, hN p.tp p.rbuf.buffer, hm]
    rw [readCopy_eq _ buf 0 m rfl rfl (Nat.zero_le _) (by simp only [length_refit]; exact hml)]
    refine ⟨_, _, [Call.Read p.rbuf.buffer
        (refit p.rbuf.buffer (T.Read p.tp p.rbuf.buffer).filled) (m : Int) none],
      rfl, ?_, rfl, ?_, rfl, by simp, by simp [Call.isRead], rfl, ?_, ?_⟩
    · simp only [TBuffer.ok, length_refit]
      omega
    · simp only [length_refit]
    · simp only [List.length_append, List.length_take, List.length_drop, length_refit]
      omega
    · have e0 : (p.rbuf.limit - p.rbuf.pos).toNat = 0 := by omega
      have e1 : ((m : Int) - ((min buf.length m : Nat) : Int)).toNat = m - min buf.length m := by
        omega
      simp only [unread, obtained, supplied, Int.toNat_ofNat, List.drop_zero,
        Nat.sub_zero, List.nil_append, List.append_nil, Nat.zero_add, e0, e1, List.take_zero]
      exact take_split _ _ _ _ (Nat.min_le_right _ _) (by rw [length_refit]; exact hml)
  · rw [if_neg hex]
    rw [readCopy_eq p buf a b ha hb hab hbl]
    refine ⟨_, _, [], rfl, ?_, rfl, rfl, by simp, by simp, by simp, rfl, ?_, ?_⟩
    · simp only [TBuffer.ok]
      omega
    · simp only [List.length_append, List.length_take, List.length_drop]
      omega
    · have e1 : ((b : Int) - ((a + min buf.length (b - a) : Nat) : Int)).toNat =
          (b - a) - min buf.length (b - a) := by omega
      have e2 : ((b : Int) - (a : Int)).toNat = b - a := by omega
      simp only [unread, obtained, List.append_nil, Int.toNat_ofNat, ha, hb, e1, e2,
        ← List.drop_drop]
      exact take_split _ _ _ _ (Nat.min_le_right _ _) (by rw [List.length_drop]; omega)

/-- Successive `Read` calls over an underlying transport whose reads succeed:
all return, and the bytes returned followed by the bytes left unread are the
bytes unread at the start followed by what the underlying `Read` calls
supplied. -/
theorem readAll_stream (T : TTransport σ ε) (hN : ReadNeverFails T) (hR : ReadInRange T)
    (bufs : List (List Byte)) :
    ∀ p : TBufferedTransport σ ε, p.rbuf.ok →
      ∃ (rs : List (ReadRet ε)) (q : TBufferedTransport σ ε) (cs : List (Call ε)),
        readAll T p bufs = .ret rs q ∧ q.rbuf.ok ∧ q.wbuf = p.wbuf ∧
        q.calls = p.calls ++ cs ∧ cs.length ≤ bufs.length ∧ (∀ c ∈ cs, c.isRead = true) ∧
        rs.length = bufs.length ∧ (∀ r ∈ rs, r.err = none) ∧
        returned rs ++ unread q = unread p ++ obtained cs := by
  induction bufs with
  | nil =>
    intro p hok
    exact ⟨[], p, [], rfl, hok, rfl, by simp, by simp, by simp, rfl, by simp,
      by simp [returned, obtained]⟩
  | cons b bs ih =>
    intro p hok
    obtain ⟨r, p1, cs1, hrd, hok1, hw1, _, hc1, hl1, hr1, he1, _, hs1⟩ :=
      Read_stream T hN hR p b hok
    obtain ⟨rs, q, cs, hrun, hokq, hwq, hcq, hlq, hrq, hrl, hre, hsq⟩ := ih p1 hok1
    refine ⟨r :: rs, q, cs1 ++ cs, ?_, hokq, by rw [hwq, hw1], ?_, ?_, ?_, by simp [hrl],
      ?_, ?_⟩
    · simp [readAll, hrd, hrun]
    · rw [hcq, hc1, List.append_assoc]
    · simp only [List.length_append, List.length_cons]
      omega
    · intro c hc
      rcases List.mem_append.1 hc with h | h
      · exact hr1 c h
      · exact hrq c h
    · intro x hx
      rcases List.mem_cons.1 hx with h | h
      · subst h; exact he1
      · exact hre x h
    · simp only [returned, List.append_assoc, hsq, obtained_append]
      rw [← List.append_assoc, hs1, List.append_assoc]

/-- C3: over an underlying transport whose reads succeed (no error, a count
within the slice handed over), for every sequence of caller buffers, the
successive `Read` calls on a new `TBufferedTransport` all return with a nil
error, the only calls they make on the underlying transport are `Read`s, and
the concatenation of the bytes they return, followed by the bytes still held
unread, is exactly the concatenation of the chunks the underlying `Read`
calls supplied; so the returned bytes are a leading part of that stream, and a
caller holding `N` returned bytes holds exactly its first `N` bytes. -/
theorem C3_read_stream (T : TTransport σ ε) (hN : ReadNeverFails T) (hR : ReadInRange T)
    (trans : σ) (c : Nat) (bufs : List (List Byte)) (p : TBufferedTransport σ ε)
    (hp : NewTBufferedTransport trans (c : Int) = some p) :
    ∃ (rs : List (ReadRet ε)) (q : TBufferedTransport σ ε),
      readAll T p bufs = .ret rs q ∧ rs.length = bufs.length ∧
      (∀ r ∈ rs, r.err = none) ∧ (∀ c ∈ q.calls, c.isRead = true) ∧
      returned rs ++ unread q = obtained q.calls ∧
      returned rs <+: obtained q.calls ∧
      ∀ N : Nat, (returned rs).length = N → returned rs = (obtained q.calls).take N := by
  rw [New_eq_fresh] at hp
  cases hp
  obtain ⟨rs, q, cs, hrun, _, _, hcq, _, hrq, hrl, hre, hsq⟩ :=
    readAll_stream T hN hR bufs (fresh trans c) (by simp [fresh, TBuffer.ok])
  have hcalls : q.calls = cs := by simpa [fresh] using hcq
  have hstream : returned rs ++ unread q = obtained q.calls := by
    rw [hsq, hcalls]
    simp [unread, fresh]
  refine ⟨rs, q, hrun, hrl, hre, by rw [hcalls]; exact hrq, hstream, ⟨unread q, hstream⟩, ?_⟩
  intro N hN
  rw [← hstream, ← hN, List.take_left]

theorem ticker_reads (chunk : Nat) :
    ReadNeverFails (ticker chunk) ∧ ReadInRange (ticker chunk) := by
  refine ⟨fun _ _ => rfl, fun s sl => ?_⟩
  simp only [ticker]
  omega

/-- C3 at capacity 2 over an endless source counting from 1, read into caller
buffers of sizes 3, 1 and 4. -/
theorem C3_read_stream_witness :
    ∃ (rs : List (ReadRet Nat)) (q : TBufferedTransport Nat Nat),
      readAll (ticker 9) (fresh 1 2) [[0, 0, 0], [0], [0, 0, 0, 0]] = .ret rs q ∧
      rs.length = 3 ∧
      (∀ r ∈ rs, r.err = none) ∧ (∀ c ∈ q.calls, c.isRead = true) ∧
      returned rs ++ unread q = obtained q.calls ∧
      returned rs <+: obtained q.calls ∧
      ∀ N : Nat, (returned rs).length = N → returned rs = (obtained q.calls).take N :=
  C3_read_stream (ticker 9) (ticker_reads 9).1 (ticker_reads 9).2 1 2
    [[0, 0, 0], [0], [0, 0, 0, 0]] (fresh 1 2) (New_eq_fresh _ 2)

/-! ## C4: the count `Write` returns -/

/-- What the flush loop leaves alone, whatever the underlying transport does:
the read buffer, the contents and limit of the write buffer; the write cursor
is unchanged or 0, and it is 0 when the loop returns a nil error. -/
theorem flushLoop_frame (T : TTransport σ ε) :
    ∀ (fuel : Nat) (start : Int) (p : TBufferedTransport σ ε),
      (flushLoop T fuel start p).state.rbuf = p.rbuf ∧
      (flushLoop T fuel start p).state.wbuf.buffer = p.wbuf.buffer ∧
      (flushLoop T fuel start p).state.wbuf.limit = p.wbuf.limit ∧
      ((flushLoop T fuel start p).state.wbuf.pos = p.wbuf.pos ∨
        (flushLoop T fuel start p).state.wbuf.pos = 0) ∧
      (∀ q, flushLoop T fuel start p = .ret none q → q.wbuf.pos = 0) := by
  intro fuel
  induction fuel with
  | zero =>
    intro start p
    unfold flushLoop
    split <;> simp [Res.state, flushTail]
  | succ fuel ih =>
    intro start p
    unfold flushLoop
    split
    · split
      · simp [Res.state]
      · rename_i s hs
        simp only []
        split
        · simp [Res.state]
        · rename_i herr
          exact ih _ _
    · simp [Res.state, flushTail]

/-- The state the optional flush of `Write` returns in has the buffer and
limit of the state before, a cursor within the buffer, and cursor 0 when a
flush was made and returned a nil error. -/
theorem writeFlush_frame (T : TTransport σ ε) (fuel : Nat) (p : TBufferedTransport σ ε)
    (buf : List Byte) (e : Option ε) (p1 : TBufferedTransport σ ε)
    (h : writeFlush T fuel p buf = .ret e p1) :
    p1.rbuf = p.rbuf ∧ p1.wbuf.buffer = p.wbuf.buffer ∧ p1.wbuf.limit = p.wbuf.limit ∧
      (p1.wbuf.pos = p.wbuf.pos ∨ p1.wbuf.pos = 0) ∧
      (p.wbuf.pos + (buf.length : Int) > p.wbuf.limit → e = none → p1.wbuf.pos = 0) := by
  unfold writeFlush at h
  by_cases hc : p.wbuf.pos + (buf.length : Int) > p.wbuf.limit
  · rw [if_pos hc] at h
    obtain ⟨f1, f2, f3, f4, f5⟩ := flushLoop_frame T fuel 0 p
    have hst : (flushLoop T fuel 0 p).state = p1 := by
      unfold Flush at h
      rw [h]
      rfl
    rw [hst] at f1 f2 f3 f4
    refine ⟨f1, f2, f3, f4, fun _ he => ?_⟩
    subst he
    exact f5 p1 h
  · rw [if_neg hc] at h
    cases h
    exact ⟨rfl, rfl, rfl, Or.inl rfl, fun hc2 => absurd hc2 hc⟩

/-- C4: for every `Write(buf)` on a write buffer with `0 ≤ pos ≤ limit =
capacity`: whenever the optional internal flush returns, leaving the write
cursor at `k`, `Write` returns `n = min(len(buf), capacity - k)` with a nil
error, the cursor advances by `n`, and the `n` bytes appended at `k` are the
first `n` bytes of `buf`, the rest of the buffer being as the flush left it;
in particular when `len(buf)` exceeds the capacity and the internal flush
returns a nil error, the buffer holds exactly the first `capacity` bytes of
`buf` and `n = capacity < len(buf)`; and over an underlying transport whose
writes answer counts inside the slice and make progress, the internal flush
does return once the fuel covers the bytes buffered. -/
theorem C4_write_count (T : TTransport σ ε) (fuel : Nat) (p : TBufferedTransport σ ε)
    (buf : List Byte) (hok : p.wbuf.ok)
    (hlim : p.wbuf.limit = (p.wbuf.buffer.length : Int)) :
    (∀ e p1, writeFlush T fuel p buf = .ret e p1 →
      ∃ (k n : Nat) (q : TBufferedTransport σ ε),
        p1.wbuf.pos = (k : Int) ∧ n = min buf.length (p.wbuf.buffer.length - k) ∧
        Write T fuel p buf = .ret ((n : Int), none) q ∧
        q.wbuf.pos = p1.wbuf.pos + (n : Int) ∧
        q.wbuf.buffer =
          p1.wbuf.buffer.take k ++ (buf.take n ++ p1.wbuf.buffer.drop (k + n)) ∧
        q.wbuf.limit = p1.wbuf.limit ∧ q.rbuf = p1.rbuf ∧ q.tp = p1.tp ∧
        q.calls = p1.calls) ∧
    (p.wbuf.buffer.length < buf.length →
      ∀ p1, writeFlush T fuel p buf = .ret none p1 →
        ∃ q : TBufferedTransport σ ε,
          Write T fuel p buf = .ret ((p.wbuf.buffer.length : Int), none) q ∧
          q.wbuf.buffer = buf.take p.wbuf.buffer.length ∧
          q.wbuf.pos = (p.wbuf.buffer.length : Int)) ∧
    (WriteSound T → p.wbuf.pos.toNat ≤ fuel → ∃ e p1, writeFlush T fuel p buf = .ret e p1) := by
  obtain ⟨h0, h1, h2⟩ := hok
  obtain ⟨k0, hk0⟩ := Int.eq_ofNat_of_zero_le h0
  have key : ∀ e p1, writeFlush T fuel p buf = .ret e p1 →
      ∃ k : Nat, p1.wbuf.pos = (k : Int) ∧ k ≤ p1.wbuf.buffer.length ∧
        p1.wbuf.buffer = p.wbuf.buffer ∧
        (p.wbuf.pos + (buf.length : Int) > p.wbuf.limit → e = none → k = 0) ∧
        Write T fuel p buf = writeCopy p1 buf := by
    intro e p1 h
    obtain ⟨_, f2, _, f4, f5⟩ := writeFlush_frame T fuel p buf e p1 h
    have hw : Write T fuel p buf = writeCopy p1 buf := by
      unfold Write
      rw [h]
    rcases f4 with f4 | f4
    · exact ⟨k0, by rw [f4, hk0], by rw [f2]; omega, f2,
        fun hc he => by have := f5 hc he; omega, hw⟩
    · exact ⟨0, by rw [f4]; rfl, Nat.zero_le _, f2, fun _ _ => rfl, hw⟩
  refine ⟨?_, ?_, ?_⟩
  · intro e p1 h
    obtain ⟨k, hk, hkl, hb, _, hw⟩ := key e p1 h
    have hmin : min (p1.wbuf.buffer.length - k) buf.length =
        min buf.length (p.wbuf.buffer.length - k) := by
      rw [hb, Nat.min_comm]
    refine ⟨k, min buf.length (p.wbuf.buffer.length - k),
      { p1 with
        wbuf :=
          { buffer := p1.wbuf.buffer.take k ++
              (buf.take (min buf.length (p.wbuf.buffer.length - k)) ++
                p1.wbuf.buffer.drop (k + min buf.length (p.wbuf.buffer.length - k)))
            pos := ((k + min buf.length (p.wbuf.buffer.length - k) : Nat) : Int)
            limit := p1.wbuf.limit } },
      hk, rfl, ?_, ?_, rfl, rfl, rfl, rfl, rfl⟩
    · rw [hw, writeCopy_eq p1 buf k hk hkl, hmin]
    · simp only [hk]
      push_cast
      rfl
  · intro hbig p1 h
    obtain ⟨k, hk, hkl, hb, hz, hw⟩ := key none p1 h
    have hk0' : k = 0 := hz (by omega) rfl
    subst hk0'
    have hmin : min (p1.wbuf.buffer.length - 0) buf.length = p.wbuf.buffer.length := by
      rw [hb]
      omega
    refine ⟨{ p1 with
        wbuf :=
          { buffer := p1.wbuf.buffer.take 0 ++
              (buf.take p.wbuf.buffer.length ++ p1.wbuf.buffer.drop (0 + p.wbuf.buffer.length))
            pos := ((0 + p.wbuf.buffer.length : Nat) : Int)
            limit := p1.wbuf.limit } }, ?_, ?_, ?_⟩
    · rw [hw, writeCopy_eq p1 buf 0 hk hkl, hmin]
    · simp [hb]
    · simp
  · intro hS hf
    unfold writeFlush
    by_cases hc : p.wbuf.pos + (buf.length : Int) > p.wbuf.limit
    · rw [if_pos hc]
      obtain ⟨ws, _, _, hcase⟩ :=
        flushLoop_run T hS fuel 0 k0 p hk0 (Nat.zero_le _) (by omega) (by omega)
      rcases hcase with ⟨s, hrun, _⟩ | ⟨e, s, sl, j, _, hrun, _⟩
      · exact ⟨_, _, hrun⟩
      · exact ⟨_, _, hrun⟩
    · rw [if_neg hc]
      exact ⟨none, p, rfl⟩

/-- C4 at capacity 2 with one byte pending, for a `Write` of the three bytes
7, 8, 9: the internal flush hands the pending byte over and succeeds, and
`Write` returns 2, the buffer then holding 7, 8. -/
theorem C4_write_count_witness :
    demoState.wbuf.ok ∧ demoState.wbuf.limit = (demoState.wbuf.buffer.length : Int) ∧
      ∃ q : TBufferedTransport (List Byte) Nat,
        Write (steady 1) 3 demoState [7, 8, 9] = .ret (2, none) q ∧
        q.wbuf.buffer = [7, 8] ∧ q.wbuf.pos = 2 :=
  ⟨by decide, rfl,
    (C4_write_count (steady 1) 3 demoState [7, 8, 9] (by decide) rfl).2.1 (by decide)
      { tp := []
        rbuf := { buffer := [0, 0], pos := 0, limit := 0 }
        wbuf := { buffer := [5, 0], pos := 0, limit := 2 }
        calls := [Call.Write [5] 1 none, Call.Flush none] }
      (by decide)⟩

/-! ## C5: what `Flush` delivers -/

/-- C5: with `k` bytes buffered (`pos = k`) over an underlying transport whose
`Write` accepts between 1 and `len(slice)` bytes of every non-empty slice
without error, `Flush` returns after making at most `k` underlying `Write`
calls (none when `k = 0`) whose accepted bytes are, in order and once each,
exactly `buffer[0:k]`, followed by exactly one underlying `Flush`; it leaves
`pos = 0` and returns what that `Flush` answered. -/
theorem C5_flush_delivers (T : TTransport σ ε) (hA : WriteAccepts T)
    (p : TBufferedTransport σ ε) (k fuel : Nat) (hk : p.wbuf.pos = (k : Int))
    (hle : k ≤ p.wbuf.buffer.length) (hf : k ≤ fuel) :
    ∃ (ws : List (Call ε)) (s : σ),
      (∀ c ∈ ws, c.isWrite = true) ∧ ws.length ≤ k ∧
      sent ws = p.wbuf.buffer.take k ∧
      Flush T fuel p =
        .ret (T.Flush s).1
          { p with
            tp := (T.Flush s).2
            wbuf := { p.wbuf with pos := 0 }
            calls := p.calls ++ ws ++ [Call.Flush (T.Flush s).1] } :=
  Flush_accepts T hA p k fuel hk hle hf

/-- C5 with the bytes 1, 2, 3 buffered over a transport that takes two bytes
per write. -/
theorem C5_flush_delivers_witness :
    ∃ (ws : List (Call Nat)) (s : List Byte),
      (∀ c ∈ ws, c.isWrite = true) ∧ ws.length ≤ 3 ∧
      sent ws = demoPending.wbuf.buffer.take 3 ∧
      Flush (steady 1) 3 demoPending =
        .ret ((steady 1).Flush s).1
          { demoPending with
            tp := ((steady 1).Flush s).2
            wbuf := { demoPending.wbuf with pos := 0 }
            calls := demoPending.calls ++ ws ++ [Call.Flush ((steady 1).Flush s).1] } :=
  C5_flush_delivers (steady 1) (steady_accepts 1) demoPending 3 3 rfl (by decide) (le_refl 3)

/-! ## C6: the error of the flush made by `Write` -/

/-- C6 fails on `Write`: with the write buffer full (5, 6 at capacity 2) over
an underlying transport whose `Write` answers error 7, `Flush` returns that
error, but `Write` of one more byte, whose internal flush gets the same
error, returns count 0 with a nil error. -/
theorem C6_write_drops_flush_error :
    Flush flaky 3 (demoFull 0) =
        .ret (some 7) { demoFull 0 with calls := [Call.Write [5, 6] 0 (some 7)] } ∧
      Write flaky 3 (demoFull 0) [9] =
        .ret (0, none) { demoFull 0 with calls := [Call.Write [5, 6] 0 (some 7)] } := by
  decide

/-! ## C7: what the returned values tell about the bytes delivered -/

/-- C7, as stated, fails: from the same buffered state (5, 6 pending at
capacity 2), over an underlying transport that fails at once and over one
that fails after accepting one byte, `Flush` returns the same error 7 and
`Write` of one more byte returns the same `(0, nil)`, while the underlying
transport received no byte in the first run and the byte 5 in the second. -/
theorem C7_counterexample :
    (demoFull 0).wbuf = (demoFull 1).wbuf ∧ (demoFull 0).rbuf = (demoFull 1).rbuf ∧
      (Flush flaky 3 (demoFull 0)).value = some (some 7) ∧
      (Flush flaky 3 (demoFull 1)).value = some (some 7) ∧
      sent (Flush flaky 3 (demoFull 0)).state.calls = [] ∧
      sent (Flush flaky 3 (demoFull 1)).state.calls = [5] ∧
      (Write flaky 3 (demoFull 0) [9]).value = some (0, none) ∧
      (Write flaky 3 (demoFull 1) [9]).value = some (0, none) ∧
      sent (Write flaky 3 (demoFull 0) [9]).state.calls = [] ∧
      sent (Write flaky 3 (demoFull 1) [9]).state.calls = [5] := by
  decide

theorem flaky_sound : WriteSound flaky := by
  intro s sl hne
  have : 1 ≤ sl.length := by
    cases sl with
    | nil => exact absurd rfl hne
    | cons x xs => simp
  cases s with
  | zero => simp [flaky]
  | succ k =>
    simp only [flaky]
    refine ⟨by omega, by omega, fun _ => by omega⟩

/-- C7 (amended): with `k` bytes buffered over an underlying transport whose
`Write` answers counts within the slice handed over, and at least 1 when it
answers no error, `Flush` returns; and when one of the underlying `Write`
calls it made answered an error, `Flush` returns exactly that error, it has
made only `Write` calls, both buffers are as before, and the bytes that
reached the underlying transport are a leading part of `buffer[0:k]` (so
between 0 and `k` bytes, how many not being told by what is returned). -/
theorem C7_flush_failure (T : TTransport σ ε) (hS : WriteSound T)
    (p : TBufferedTransport σ ε) (k fuel : Nat) (hk : p.wbuf.pos = (k : Int))
    (hle : k ≤ p.wbuf.buffer.length) (hf : k ≤ fuel) :
    ∃ (r : Option ε) (q : TBufferedTransport σ ε) (cs : List (Call ε)),
      Flush T fuel p = .ret r q ∧ q.calls = p.calls ++ cs ∧
      ∀ given n e, Call.Write given n (some e) ∈ cs →
        r = some e ∧ q.wbuf = p.wbuf ∧ q.rbuf = p.rbuf ∧ (∀ c ∈ cs, c.isWrite = true) ∧
        sent cs <+: p.wbuf.buffer.take k ∧ (sent cs).length ≤ k := by
  obtain ⟨ws, hws, _, hcase⟩ :=
    flushLoop_run T hS fuel 0 k p hk (Nat.zero_le _) hle (by omega)
  rcases hcase with ⟨s, hrun, _, hnone⟩ | ⟨e, s, sl, j, _, hrun, _, hj, hs, ws0, hw0, hnone⟩
  · refine ⟨_, _, ws ++ [Call.Flush (T.Flush s).1], hrun, by simp, ?_⟩
    intro given n e hmem
    exfalso
    rcases List.mem_append.1 hmem with h | h
    · have := hnone _ h
      simp [Call.err] at this
    · simp at h
  · refine ⟨_, _, ws, hrun, rfl, ?_⟩
    intro given n e1 hmem
    have he : e1 = e := by
      rw [hw0] at hmem
      rcases List.mem_append.1 hmem with h | h
      · have := hnone _ h
        simp [Call.err] at this
      · simp only [List.mem_singleton, Call.Write.injEq] at h
        have h3 := h.2.2
        exact Option.some.inj h3
    subst he
    have hpre : sent ws <+: p.wbuf.buffer.take k := by
      rw [hs]
      simp only [List.drop_zero, Nat.sub_zero] at hj ⊢
      have : List.take j p.wbuf.buffer = List.take j (List.take k p.wbuf.buffer) := by
        rw [List.take_take, Nat.min_eq_left hj]
      rw [this]
      exact List.take_prefix _ _
    refine ⟨rfl, rfl, rfl, hws, hpre, ?_⟩
    have := hpre.length_le
    simp only [List.length_take] at this ⊢
    omega

/-- C7 (amended) at the full buffer 5, 6 over an underlying transport that
fails after accepting one byte. -/
theorem C7_flush_failure_witness :
    ∃ (r : Option Nat) (q : TBufferedTransport Nat Nat) (cs : List (Call Nat)),
      Flush flaky 2 (demoFull 1) = .ret r q ∧ q.calls = (demoFull 1).calls ++ cs ∧
      ∀ given n e, Call.Write given n (some e) ∈ cs →
        r = some e ∧ q.wbuf = (demoFull 1).wbuf ∧ q.rbuf = (demoFull 1).rbuf ∧
        (∀ c ∈ cs, c.isWrite = true) ∧
        sent cs <+: (demoFull 1).wbuf.buffer.take 2 ∧ (sent cs).length ≤ 2 :=
  C7_flush_failure flaky flaky_sound (demoFull 1) 2 2 rfl (by decide) (le_refl 2)

/-! ## C8: the buffer invariant -/

theorem readCopy_inv (c : Nat) (p : TBufferedTransport σ ε) (buf : List Byte)
    (h : Inv c p) : Inv c (readCopy p buf).state := by
  obtain ⟨⟨h0, h1, h2⟩, hw, hrl, hwl, hlim⟩ := h
  obtain ⟨a, ha⟩ := Int.eq_ofNat_of_zero_le h0
  obtain ⟨b, hb⟩ := Int.eq_ofNat_of_zero_le (le_trans h0 h1)
  rw [readCopy_eq p buf a b ha hb (by omega) (by omega)]
  refine ⟨?_, hw, hrl, hwl, hlim⟩
  simp only [Res.state, TBuffer.ok]
  omega

theorem Read_inv (T : TTransport σ ε) (hR : ReadInRange T) (c : Nat)
    (p : TBufferedTransport σ ε) (buf : List Byte) (h : Inv c p) :
    Inv c (Read T p buf).state := by
  unfold Read
  split
  · obtain ⟨hm0, hm1⟩ := hR p.tp p.rbuf.buffer
    have hp1 : Inv c (refill T p).1 := by
      obtain ⟨_, hw, hrl, hwl, hlim⟩ := h
      refine ⟨?_, hw, ?_, hwl, hlim⟩
      · simp only [refill, TBuffer.ok, length_refit]
        omega
      · simp only [refill, length_refit]
        exact hrl
    split
    · rename_i p1 e heq
      have : p1 = (refill T p).1 := by rw [heq]
      rw [this]
      exact hp1
    · rename_i p1 heq
      have : p1 = (refill T p).1 := by rw [heq]
      rw [this]
      exact readCopy_inv c _ buf hp1
  · exact readCopy_inv c p buf h

theorem Flush_inv (T : TTransport σ ε) (c fuel : Nat) (p : TBufferedTransport σ ε)
    (h : Inv c p) : Inv c (Flush T fuel p).state := by
  obtain ⟨hr, ⟨h0, h1, h2⟩, hrl, hwl, hlim⟩ := h
  obtain ⟨f1, f2, f3, f4, _⟩ := flushLoop_frame T fuel 0 p
  unfold Flush
  refine ⟨by rw [f1]; exact hr, ?_, by rw [f1]; exact hrl, by rw [f2]; exact hwl,
    by rw [f3]; exact hlim⟩
  simp only [TBuffer.ok, f2, f3]
  rcases f4 with f4 | f4 <;> rw [f4] <;> omega

theorem writeCopy_inv (c : Nat) (p : TBufferedTransport σ ε) (buf : List Byte)
    (h : Inv c p) : Inv c (writeCopy p buf).state := by
  obtain ⟨hr, ⟨h0, h1, h2⟩, hrl, hwl, hlim⟩ := h
  obtain ⟨k, hk⟩ := Int.eq_ofNat_of_zero_le h0
  rw [writeCopy_eq p buf k hk (by omega)]
  refine ⟨hr, ?_, hrl, ?_, hlim⟩
  · simp only [Res.state, TBuffer.ok, List.length_append, List.length_take, List.length_drop]
    omega
  · simp only [Res.state, List.length_append, List.length_take, List.length_drop]
    omega

theorem Write_inv (T : TTransport σ ε) (c fuel : Nat) (p : TBufferedTransport σ ε)
    (buf : List Byte) (h : Inv c p) : Inv c (Write T fuel p buf).state := by
  have hfl : Inv c (writeFlush T fuel p buf).state := by
    unfold writeFlush
    split
    · exact Flush_inv T c fuel p h
    · exact h
  unfold Write
  cases hwf : writeFlush T fuel p buf with
  | ret e p1 =>
    rw [hwf] at hfl
    exact writeCopy_inv c p1 buf hfl
  | panic p1 =>
    rw [hwf] at hfl
    exact hfl
  | spin p1 =>
    rw [hwf] at hfl
    exact hfl

theorem step_inv (T : TTransport σ ε) (hR : ReadInRange T) (c fuel : Nat)
    (p : TBufferedTransport σ ε) (op : Op) (h : Inv c p) : Inv c (step T fuel p op) := by
  cases op with
  | Read buf => exact Read_inv T hR c p buf h
  | Write buf => exact Write_inv T c fuel p buf h
  | Flush => exact Flush_inv T c fuel p h
  | Peek =>
    simp only [step, Peek]
    split <;> exact h
  | Open => exact h
  | Close => exact h
  | IsOpen => exact h

theorem run_inv (T : TTransport σ ε) (hR : ReadInRange T) (c fuel : Nat) (ops : List Op) :
    ∀ p : TBufferedTransport σ ε, Inv c p → Inv c (run T fuel p ops) := by
  induction ops with
  | nil => exact fun _ h => h
  | cons op ops ih => exact fun p h => ih _ (step_inv T hR c fuel p op h)

/-- C8: a `TBufferedTransport` built by `NewTBufferedTransport` with capacity
`c ≥ 0` satisfies `0 ≤ pos ≤ limit ≤ capacity` on its read buffer and on its
write buffer, both of `c` bytes, after construction and after every sequence
of `Read`, `Write`, `Flush`, `Peek`, `Open`, `Close` and `IsOpen` calls,
whatever their outcome, provided every underlying `Read` answers a count
between 0 and the length of the slice it was handed. -/
theorem C8_buffer_invariant (T : TTransport σ ε) (hR : ReadInRange T) (trans : σ)
    (c fuel : Nat) (p : TBufferedTransport σ ε)
    (hp : NewTBufferedTransport trans (c : Int) = some p) (ops : List Op) :
    (run T fuel p ops).rbuf.ok ∧ (run T fuel p ops).wbuf.ok ∧
      (run T fuel p ops).rbuf.buffer.length = c ∧
      (run T fuel p ops).wbuf.buffer.length = c := by
  rw [New_eq_fresh] at hp
  cases hp
  have h0 : Inv c (fresh trans c : TBufferedTransport σ ε) := by
    simp [Inv, fresh, TBuffer.ok]
  obtain ⟨h1, h2, h3, h4, _⟩ := run_inv T hR c fuel ops _ h0
  exact ⟨h1, h2, h3, h4⟩

/-- C8 at capacity 2 over an endless source, for a write, a read, a flush and
a peek. -/
theorem C8_buffer_invariant_witness :
    (run (ticker 0) 3 (fresh 1 2) [Op.Write [7, 8, 9], Op.Read [0, 0, 0], Op.Flush, Op.Peek]).rbuf.ok ∧
      (run (ticker 0) 3 (fresh 1 2) [Op.Write [7, 8, 9], Op.Read [0, 0, 0], Op.Flush, Op.Peek]).wbuf.ok ∧
      (run (ticker 0) 3 (fresh 1 2)
        [Op.Write [7, 8, 9], Op.Read [0, 0, 0], Op.Flush, Op.Peek]).rbuf.buffer.length = 2 ∧
      (run (ticker 0) 3 (fresh 1 2)
        [Op.Write [7, 8, 9], Op.Read [0, 0, 0], Op.Flush, Op.Peek]).wbuf.buffer.length = 2 :=
  C8_buffer_invariant (ticker 0) (ticker_reads 0).2 1 2 3 (fresh 1 2) (New_eq_fresh _ 2)
    [Op.Write [7, 8, 9], Op.Read [0, 0, 0], Op.Flush, Op.Peek]

/-! ## C9: a read of no byte -/

theorem ticker_zero_only_empty (chunk : Nat) :
    ∀ (s : Nat) (sl : List Byte),
      ((ticker chunk).Read s sl).n = 0 → ((ticker chunk).Read s sl).err = none → sl = [] := by
  intro s sl hn _
  simp only [ticker] at hn
  have : sl.length = 0 := by omega
  exact List.length_eq_zero.1 this

theorem readCopy_positive (p : TBufferedTransport σ ε) (buf : List Byte) (r : ReadRet ε)
    (q : TBufferedTransport σ ε) (h : readCopy p buf = .ret r q)
    (hlt : p.rbuf.pos ≠ p.rbuf.limit) (hne : buf ≠ []) : 1 ≤ r.n ∧ r.err = none := by
  unfold readCopy at h
  cases hs : slice p.rbuf.buffer p.rbuf.pos p.rbuf.limit with
  | none => rw [hs] at h; cases h
  | some src =>
    rw [hs] at h
    simp only [Res.ret.injEq] at h
    obtain ⟨hr, _⟩ := h
    unfold slice at hs
    split at hs
    · rename_i hb
      obtain ⟨h0, h1, h2⟩ := hb
      simp only [Option.some.injEq] at hs
      have hl : src.length = (p.rbuf.limit - p.rbuf.pos).toNat := by
        rw [← hs]
        simp only [List.length_take, List.length_drop]
        omega
      have hb1 : 1 ≤ buf.length := by
        cases buf with
        | nil => exact absurd rfl hne
        | cons x xs => simp
      rw [← hr]
      simp only [copy, hl]
      refine ⟨?_, trivial⟩
      have : 1 ≤ (p.rbuf.limit - p.rbuf.pos).toNat := by omega
      omega
    · cases hs

/-- C9: for a `TBufferedTransport` of positive capacity over an underlying
transport whose `Read` answers count 0 with no error only for an empty slice,
a `Read(buf)` that returns a nil error returns `n = 0` only when `len(buf) ==
0`; for a non-empty `buf` it returns at least one byte. -/
theorem C9_read_zero_only_empty (T : TTransport σ ε)
    (hZ : ∀ s sl, (T.Read s sl).n = 0 → (T.Read s sl).err = none → sl = [])
    (p : TBufferedTransport σ ε) (hcap : 0 < p.rbuf.buffer.length) (buf : List Byte)
    (r : ReadRet ε) (q : TBufferedTransport σ ε) (h : Read T p buf = .ret r q)
    (he : r.err = none) : (r.n = 0 → buf = []) ∧ (buf ≠ [] → 1 ≤ r.n) := by
  have main : buf ≠ [] → 1 ≤ r.n := by
    intro hne
    unfold Read at h
    by_cases hex : p.rbuf.pos = p.rbuf.limit
    · rw [if_pos hex] at h
      cases herr : (T.Read p.tp p.rbuf.buffer).err with
      | some e =>
        simp only [refill, herr, Res.ret.injEq] at h
        rw [← h.1] at he
        cases he
      | none =>
        simp only [refill, herr] at h
        have hm : (T.Read p.tp p.rbuf.buffer).n ≠ 0 := by
          intro h0
          have := hZ p.tp p.rbuf.buffer h0 herr
          rw [this] at hcap
          simp at hcap
        exact (readCopy_positive _ buf r q h (fun hc => hm hc.symm) hne).1
    · rw [if_neg hex] at h
      exact (readCopy_positive p buf r q h hex hne).1
  refine ⟨fun hn => ?_, main⟩
  by_contra hne
  have := main hne
  omega

/-- C9 at capacity 2 over an endless source that supplies one byte per read:
a `Read` into a two-byte buffer returns one byte. -/
theorem C9_read_zero_only_empty_witness :
    Read (ticker 0) (fresh 1 2) [0, 0] =
        .ret { n := 1, err := none, buf := [1, 0] }
          { tp := 2
            rbuf := { buffer := [1, 0], pos := 1, limit := 1 }
            wbuf := { buffer := [0, 0], pos := 0, limit := 2 }
            calls := [Call.Read [0, 0] [1, 0] 1 none] } ∧
      (((1 : Int) = 0 → ([0, 0] : List Byte) = []) ∧ (([0, 0] : List Byte) ≠ [] → 1 ≤ (1 : Int))) :=
  ⟨by decide,
    C9_read_zero_only_empty (ticker 0) (ticker_zero_only_empty 0) (fresh 1 2) (by decide) [0, 0]
      { n := 1, err := none, buf := [1, 0] }
      { tp := 2
        rbuf := { buffer := [1, 0], pos := 1, limit := 1 }
        wbuf := { buffer := [0, 0], pos := 0, limit := 2 }
        calls := [Call.Read [0, 0] [1, 0] 1 none] }
      (by decide) rfl⟩

/-! ## C10: capacity 0 -/

/-- C10, as stated, fails: with capacity 0 over an underlying transport that
accepts every byte, `Write` of 1, 2, 3 returns `(0, nil)` and the following
`Flush` hands the underlying transport no byte; and over an endless source
whose own `Read` into a two-byte buffer supplies bytes, `Read` of the
buffered transport hands it an empty slice and returns no byte. -/
theorem C10_counterexample :
    (NewTBufferedTransport ([] : List Byte) 0 : Option (TBufferedTransport (List Byte) Nat)) =
        some (fresh [] 0) ∧
      (writeAllFlush (steady 100) 5 (fresh [] 0) [[1, 2, 3]]).value = some ([(0, none)], none) ∧
      sent (writeAllFlush (steady 100) 5 (fresh [] 0) [[1, 2, 3]]).state.calls = [] ∧
      ((ticker 9).Read 1 [0, 0]).n = 2 ∧ ((ticker 9).Read 1 [0, 0]).filled = [1, 2] ∧
      Read (ticker 9) (fresh 1 0) [0, 0] =
        .ret { n := 0, err := none, buf := [0, 0] }
          { tp := 1
            rbuf := { buffer := [], pos := 0, limit := 0 }
            wbuf := { buffer := [], pos := 0, limit := 0 }
            calls := [Call.Read [] [] 0 none] } := by
  decide

/-- C10 (amended): a `TBufferedTransport` built with capacity 0 transfers no
data, whatever the underlying transport: for every `buf`, `Write(buf)` returns
count 0 with a nil error, buffers nothing and makes no underlying `Write`; the
following `Flush` returns and makes no underlying `Write` either, so the
underlying transport receives no byte; and `Read(buf)` makes one underlying
`Read`, handing it an empty slice, and whenever it returns it returns count 0
and leaves `buf` as it was. -/
theorem C10_capacity_zero (T : TTransport σ ε) (trans : σ) (p : TBufferedTransport σ ε)
    (hp : NewTBufferedTransport trans 0 = some p) (buf : List Byte) (fuel : Nat) :
    (∃ q : TBufferedTransport σ ε,
        Write T fuel p buf = .ret (0, none) q ∧ q.wbuf = p.wbuf ∧ q.rbuf = p.rbuf ∧
        (∀ c ∈ q.calls, c.isWrite = false) ∧
        ∃ (e : Option ε) (q2 : TBufferedTransport σ ε),
          Flush T fuel q = .ret e q2 ∧ (∀ c ∈ q2.calls, c.isWrite = false) ∧
          sent q2.calls = []) ∧
      (Read T p buf).state.calls =
        [Call.Read [] [] (T.Read trans []).n (T.Read trans []).err] ∧
      ∀ r q, Read T p buf = .ret r q → r.n = 0 ∧ r.buf = buf := by
  have hp0 : p = fresh trans 0 := by
    have := @New_eq_fresh σ ε trans 0
    simp only [Nat.cast_zero] at this
    rw [this] at hp
    exact (Option.some.inj hp).symm
  have hfr : (fresh trans 0 : TBufferedTransport σ ε) =
      { tp := trans
        rbuf := { buffer := [], pos := 0, limit := 0 }
        wbuf := { buffer := [], pos := 0, limit := 0 }
        calls := [] } := rfl
  subst hp0
  have hFl : ∀ (n : Nat) (x : TBufferedTransport σ ε), x.wbuf.pos = 0 →
      Flush T n x = flushTail T x := by
    intro n x hx
    cases n <;> simp [Flush, flushLoop, hx]
  refine ⟨?_, ?_, ?_⟩
  · cases buf with
    | nil =>
      refine ⟨fresh trans 0, ?_, rfl, rfl, by simp [fresh], (T.Flush trans).1,
        (flushTail T (fresh trans 0)).state, ?_, ?_, ?_⟩
      · simp [Write, writeFlush, writeCopy, slice, copy, fresh]
      · rw [hFl _ _ rfl]
        rfl
      · simp [flushTail, fresh, Res.state, Call.isWrite]
      · simp [flushTail, fresh, Res.state, sent, accepted]
    | cons b bs =>
      refine ⟨(flushTail T (fresh trans 0)).state, ?_, rfl, rfl, ?_,
        (T.Flush (T.Flush trans).2).1,
        (flushTail T (flushTail T (fresh trans 0)).state).state, ?_, ?_, ?_⟩
      · simp [Write, writeFlush, hFl, flushTail, writeCopy, slice, copy, fresh, Res.state]
      · simp [flushTail, fresh, Res.state, Call.isWrite]
      · rw [hFl _ _ rfl]
        rfl
      · simp [flushTail, fresh, Res.state, Call.isWrite]
      · simp [flushTail, fresh, Res.state, sent, accepted]
  · rw [hfr]
    unfold Read
    rw [if_pos rfl]
    cases herr : (T.Read trans []).err with
    | some e => simp [refill, refit, herr, Res.state]
    | none =>
      simp only [refill, refit, herr, readCopy]
      split <;> simp [Res.state]
  · intro r q h
    rw [hfr] at h
    unfold Read at h
    rw [if_pos rfl] at h
    cases herr : (T.Read trans []).err with
    | some e =>
      simp only [refill, herr, Res.ret.injEq] at h
      rw [← h.1]
      exact ⟨rfl, rfl⟩
    | none =>
      simp only [refill, refit, herr, readCopy] at h
      split at h
      · cases h
      · rename_i src hs
        simp only [Res.ret.injEq] at h
        rw [← h.1]
        have hsrc : src = [] := by
          unfold slice at hs
          split at hs
          · simp at hs
            exact hs
          · cases hs
        subst hsrc
        simp [copy]

/-- C10 (amended) at capacity 0 over an endless source that accepts every
write, for the two bytes 4, 2. -/
theorem C10_capacity_zero_witness :
    (∃ q : TBufferedTransport Nat Nat,
        Write (ticker 9) 3 (fresh 1 0) [4, 2] = .ret (0, none) q ∧
        q.wbuf = (fresh 1 0 : TBufferedTransport Nat Nat).wbuf ∧
        q.rbuf = (fresh 1 0 : TBufferedTransport Nat Nat).rbuf ∧
        (∀ c ∈ q.calls, c.isWrite = false) ∧
        ∃ (e : Option Nat) (q2 : TBufferedTransport Nat Nat),
          Flush (ticker 9) 3 q = .ret e q2 ∧ (∀ c ∈ q2.calls, c.isWrite = false) ∧
          sent q2.calls = []) ∧
      (Read (ticker 9) (fresh 1 0) [4, 2]).state.calls =
        [Call.Read [] [] ((ticker 9).Read 1 []).n ((ticker 9).Read 1 []).err] ∧
      ∀ r q, Read (ticker 9) (fresh 1 0) [4, 2] = .ret r q → r.n = 0 ∧ r.buf = [4, 2] :=
  C10_capacity_zero (ticker 9) 1 (fresh 1 0) (New_eq_fresh 1 0) [4, 2] 3

/-! ## C11: a failed refill -/

theorem refit_self (given : List Byte) : refit given given = given := by
  unfold refit
  rw [List.take_append_of_le_length (le_refl _), List.take_of_length_le (le_refl _)]

/-- C11: when the read buffer is exhausted (`pos == limit`) and the underlying
`Read` answers an error, `Read(buf)` returns count 0 with that same error and
`buf` as it was; it has made that one underlying call only, the write buffer
is untouched, and of the read buffer it has set `pos = 0` and `limit` = the
count the failed underlying `Read` reported, the contents being what that
underlying `Read` left in the slice it was handed (unchanged when it wrote
nothing). -/
theorem C11_read_error (T : TTransport σ ε) (p : TBufferedTransport σ ε) (buf : List Byte)
    (e : ε) (hex : p.rbuf.pos = p.rbuf.limit)
    (herr : (T.Read p.tp p.rbuf.buffer).err = some e) :
    Read T p buf =
        .ret { n := 0, err := some e, buf := buf }
          { tp := (T.Read p.tp p.rbuf.buffer).tp
            rbuf :=
              { buffer := refit p.rbuf.buffer (T.Read p.tp p.rbuf.buffer).filled
                pos := 0
                limit := (T.Read p.tp p.rbuf.buffer).n }
            wbuf := p.wbuf
            calls := p.calls ++ [Call.Read p.rbuf.buffer
              (refit p.rbuf.buffer (T.Read p.tp p.rbuf.buffer).filled)
              (T.Read p.tp p.rbuf.buffer).n (some e)] } ∧
      ((T.Read p.tp p.rbuf.buffer).filled = p.rbuf.buffer →
        (Read T p buf).state.rbuf.buffer = p.rbuf.buffer) := by
  have h1 : Read T p buf =
      .ret { n := 0, err := some e, buf := buf }
        { tp := (T.Read p.tp p.rbuf.buffer).tp
          rbuf :=
            { buffer := refit p.rbuf.buffer (T.Read p.tp p.rbuf.buffer).filled
              pos := 0
              limit := (T.Read p.tp p.rbuf.buffer).n }
          wbuf := p.wbuf
          calls := p.calls ++ [Call.Read p.rbuf.buffer
            (refit p.rbuf.buffer (T.Read p.tp p.rbuf.buffer).filled)
            (T.Read p.tp p.rbuf.buffer).n (some e)] } := by
    unfold Read
    rw [if_pos hex]
    simp only [refill, herr]
  refine ⟨h1, fun hf => ?_⟩
  rw [h1, hf]
  exact refit_self _

/-- C11 at a new transport of capacity 2 over an input that is at its end:
the underlying `Read` answers `(0, error 1)`. -/
theorem C11_read_error_witness :
    Read (steady 9) (fresh [] 2) [7, 7] =
        .ret { n := 0, err := some 1, buf := [7, 7] }
          { tp := []
            rbuf := { buffer := [0, 0], pos := 0, limit := 0 }
            wbuf := { buffer := [0, 0], pos := 0, limit := 2 }
            calls := [Call.Read [0, 0] [0, 0] 0 (some 1)] } :=
  (C11_read_error (steady 9) (fresh [] 2) [7, 7] 1 rfl rfl).1

/-! ## C12: `Peek` -/

/-- C12: `Peek` returns, and returns true if and only if the read buffer
holds unconsumed bytes (`pos < limit`) or the underlying `Peek` answers true
(it is asked only when `pos ≥ limit`); it leaves both buffers (contents, `pos`,
`limit`) as they were; so it returns true whenever the underlying transport
reports data, as it does over an in-memory transport to which the bytes 1, 2
were written and flushed through a `TBufferedTransport` of capacity 4. -/
theorem C12_peek (T : TTransport σ ε) (p : TBufferedTransport σ ε) :
    (∃ q : TBufferedTransport σ ε,
        Peek T p = .ret (decide (p.rbuf.pos < p.rbuf.limit) || (T.Peek p.tp).1) q ∧
        q.rbuf = p.rbuf ∧ q.wbuf = p.wbuf ∧
        (p.rbuf.pos < p.rbuf.limit → q = p) ∧
        (¬ p.rbuf.pos < p.rbuf.limit →
          q.calls = p.calls ++ [Call.Peek (T.Peek p.tp).1] ∧ q.tp = (T.Peek p.tp).2)) ∧
      ((Peek T p).value = some true ↔
        (p.rbuf.pos < p.rbuf.limit ∨ (T.Peek p.tp).1 = true)) ∧
      ((T.Peek p.tp).1 = true → (Peek T p).value = some true) ∧
      (Peek loopback (writeAllFlush loopback 4 (fresh [] 4) [[1, 2]]).state).value =
        some true := by
  have hmain : ∃ q : TBufferedTransport σ ε,
      Peek T p = .ret (decide (p.rbuf.pos < p.rbuf.limit) || (T.Peek p.tp).1) q ∧
      q.rbuf = p.rbuf ∧ q.wbuf = p.wbuf ∧
      (p.rbuf.pos < p.rbuf.limit → q = p) ∧
      (¬ p.rbuf.pos < p.rbuf.limit →
        q.calls = p.calls ++ [Call.Peek (T.Peek p.tp).1] ∧ q.tp = (T.Peek p.tp).2) := by
    by_cases h : p.rbuf.pos < p.rbuf.limit
    · exact ⟨p, by simp [Peek, h], rfl, rfl, fun _ => rfl, fun hn => absurd h hn⟩
    · exact ⟨{ p with tp := (T.Peek p.tp).2, calls := p.calls ++ [Call.Peek (T.Peek p.tp).1] },
        by simp [Peek, h], rfl, rfl, fun hp => absurd hp h, fun _ => ⟨rfl, rfl⟩⟩
  have hcopy := hmain
  obtain ⟨q, hq, _⟩ := hcopy
  have hiff : (Peek T p).value = some true ↔
      (p.rbuf.pos < p.rbuf.limit ∨ (T.Peek p.tp).1 = true) := by
    rw [hq]
    simp [Res.value]
  exact ⟨hmain, hiff, fun h => hiff.2 (Or.inr h), by decide⟩

/-! ## C13: `Open`, `Close`, `IsOpen` -/

/-- C13: `Open`, `Close` and `IsOpen` each make exactly one call on the
underlying transport, the method of the same name, return exactly what it
answered, and leave both buffers (contents, `pos`, `limit`) as they were, so
the bytes pending in the write buffer and the bytes unread in the read buffer
are still there afterwards. -/
theorem C13_open_close_isopen (T : TTransport σ ε) (p : TBufferedTransport σ ε) :
    (Open T p = .ret (T.Open p.tp).1
        { p with tp := (T.Open p.tp).2, calls := p.calls ++ [Call.Open (T.Open p.tp).1] } ∧
      Close T p = .ret (T.Close p.tp).1
        { p with tp := (T.Close p.tp).2, calls := p.calls ++ [Call.Close (T.Close p.tp).1] } ∧
      IsOpen T p = .ret (T.IsOpen p.tp).1
        { p with
          tp := (T.IsOpen p.tp).2
          calls := p.calls ++ [Call.IsOpen (T.IsOpen p.tp).1] }) ∧
    ((Open T p).state.rbuf = p.rbuf ∧ (Open T p).state.wbuf = p.wbuf ∧
      (Close T p).state.rbuf = p.rbuf ∧ (Close T p).state.wbuf = p.wbuf ∧
      (IsOpen T p).state.rbuf = p.rbuf ∧ (IsOpen T p).state.wbuf = p.wbuf) ∧
    (pending (Open T p).state = pending p ∧ unread (Open T p).state = unread p ∧
      pending (Close T p).state = pending p ∧ unread (Close T p).state = unread p ∧
      pending (IsOpen T p).state = pending p ∧ unread (IsOpen T p).state = unread p) :=
  ⟨⟨rfl, rfl, rfl⟩, ⟨rfl, rfl, rfl, rfl, rfl, rfl⟩, ⟨rfl, rfl, rfl, rfl, rfl, rfl⟩⟩

/-! ## C17: when `Write` flushes -/

/-- The flush loop only adds calls to the history, all of them `Write` or
`Flush` calls. -/
theorem flushLoop_calls (T : TTransport σ ε) :
    ∀ (fuel : Nat) (start : Int) (p : TBufferedTransport σ ε),
      ∃ cs : List (Call ε), (flushLoop T fuel start p).state.calls = p.calls ++ cs ∧
        ∀ c ∈ cs, c.isWrite = true ∨ c.isFlush = true := by
  intro fuel
  induction fuel with
  | zero =>
    intro start p
    unfold flushLoop
    split
    · exact ⟨[], by simp [Res.state], by simp⟩
    · exact ⟨[Call.Flush (T.Flush p.tp).1], by simp [Res.state, flushTail],
        by simp [Call.isFlush]⟩
  | succ fuel ih =>
    intro start p
    unfold flushLoop
    split
    · split
      · exact ⟨[], by simp [Res.state], by simp⟩
      · rename_i s hs
        simp only []
        split
        · rename_i e herr
          exact ⟨[Call.Write s (T.Write p.tp s).n (T.Write p.tp s).err],
            by simp [Res.state], by simp [Call.isWrite]⟩
        · rename_i herr
          obtain ⟨cs, hcs, hk⟩ := ih (start + (T.Write p.tp s).n)
            { p with
              tp := (T.Write p.tp s).tp
              calls := p.calls ++ [Call.Write s (T.Write p.tp s).n (T.Write p.tp s).err] }
          refine ⟨Call.Write s (T.Write p.tp s).n (T.Write p.tp s).err :: cs, ?_, ?_⟩
          · rw [hcs]
            simp
          · intro c hc
            rcases List.mem_cons.1 hc with h | h
            · subst h
              exact Or.inl rfl
            · exact hk c h
    · exact ⟨[Call.Flush (T.Flush p.tp).1], by simp [Res.state, flushTail],
        by simp [Call.isFlush]⟩

/-- With fuel for one iteration and the write cursor inside the buffer, `Flush`
makes at least one call on the underlying transport. -/
theorem Flush_calls_nonempty (T : TTransport σ ε) (fuel : Nat) (p : TBufferedTransport σ ε)
    (h0 : 0 ≤ p.wbuf.pos) (h1 : p.wbuf.pos ≤ (p.wbuf.buffer.length : Int)) :
    ∃ (c : Call ε) (cs : List (Call ε)),
      (Flush T (fuel + 1) p).state.calls = p.calls ++ c :: cs := by
  obtain ⟨k, hk⟩ := Int.eq_ofNat_of_zero_le h0
  unfold Flush flushLoop
  by_cases hlt : (0 : Int) < p.wbuf.pos
  · rw [if_pos hlt]
    have hsl := slice_nat p.wbuf.buffer 0 k (Nat.zero_le _) (by omega)
    simp only [Nat.cast_zero] at hsl
    rw [hk, hsl]
    simp only []
    split
    · exact ⟨Call.Write (List.take (k - 0) (List.drop 0 p.wbuf.buffer))
          (T.Write p.tp (List.take (k - 0) (List.drop 0 p.wbuf.buffer))).n
          (T.Write p.tp (List.take (k - 0) (List.drop 0 p.wbuf.buffer))).err, [],
        by simp [Res.state]⟩
    · obtain ⟨cs, hcs, _⟩ := flushLoop_calls T fuel
        (0 + (T.Write p.tp (List.take (k - 0) (List.drop 0 p.wbuf.buffer))).n)
        { p with
          tp := (T.Write p.tp (List.take (k - 0) (List.drop 0 p.wbuf.buffer))).tp
          calls := p.calls ++ [Call.Write (List.take (k - 0) (List.drop 0 p.wbuf.buffer))
            (T.Write p.tp (List.take (k - 0) (List.drop 0 p.wbuf.buffer))).n
            (T.Write p.tp (List.take (k - 0) (List.drop 0 p.wbuf.buffer))).err] }
      exact ⟨Call.Write (List.take (k - 0) (List.drop 0 p.wbuf.buffer))
          (T.Write p.tp (List.take (k - 0) (List.drop 0 p.wbuf.buffer))).n
          (T.Write p.tp (List.take (k - 0) (List.drop 0 p.wbuf.buffer))).err, cs,
        by rw [hcs]; simp⟩
  · rw [if_neg hlt]
    exact ⟨Call.Flush (T.Flush p.tp).1, [], by simp [Res.state, flushTail]⟩

/-- The copy step of `Write` makes no call and leaves the read buffer and the
underlying transport alone. -/
theorem writeCopy_frame (p : TBufferedTransport σ ε) (buf : List Byte) :
    (writeCopy p buf).state.calls = p.calls ∧ (writeCopy p buf).state.rbuf = p.rbuf ∧
      (writeCopy p buf).state.tp = p.tp := by
  unfold writeCopy
  split <;> simp [Res.state]

/-- The history, read buffer and underlying state after `Write` are those
after its optional flush. -/
theorem Write_state (T : TTransport σ ε) (fuel : Nat) (p : TBufferedTransport σ ε)
    (buf : List Byte) :
    (Write T fuel p buf).state.calls = (writeFlush T fuel p buf).state.calls ∧
      (Write T fuel p buf).state.rbuf = (writeFlush T fuel p buf).state.rbuf ∧
      (Write T fuel p buf).state.tp = (writeFlush T fuel p buf).state.tp := by
  unfold Write
  cases h : writeFlush T fuel p buf with
  | ret e p1 => exact writeCopy_frame p1 buf
  | panic p1 => exact ⟨rfl, rfl, rfl⟩
  | spin p1 => exact ⟨rfl, rfl, rfl⟩

/-- C17: on a write buffer with `0 ≤ pos ≤ limit = capacity`, `Write(buf)`
flushes if and only if `pos + len(buf) > capacity`.  When `pos + len(buf) ≤
capacity` it makes no call on the underlying transport, puts all of `buf`
right after the `pos` bytes already buffered, advances `pos` by `len(buf)` and
returns `(len(buf), nil)`.  When `pos + len(buf) > capacity` it runs `Flush`
first and then copies, and (with fuel for one loop iteration) at least one
call reaches the underlying transport. -/
theorem C17_write_flushes_iff_overflow (T : TTransport σ ε) (fuel : Nat)
    (p : TBufferedTransport σ ε) (buf : List Byte) (hok : p.wbuf.ok)
    (hlim : p.wbuf.limit = (p.wbuf.buffer.length : Int)) :
    (p.wbuf.pos + (buf.length : Int) ≤ (p.wbuf.buffer.length : Int) →
      ∃ k : Nat, p.wbuf.pos = (k : Int) ∧
        Write T fuel p buf =
          .ret ((buf.length : Int), none)
            { p with
              wbuf :=
                { buffer := p.wbuf.buffer.take k ++ (buf ++ p.wbuf.buffer.drop (k + buf.length))
                  pos := p.wbuf.pos + (buf.length : Int)
                  limit := p.wbuf.limit } }) ∧
    (p.wbuf.pos + (buf.length : Int) > (p.wbuf.buffer.length : Int) →
      Write T fuel p buf =
          (match Flush T fuel p with
            | .ret _ p1 => writeCopy p1 buf
            | .panic s => .panic s
            | .spin s => .spin s) ∧
        (0 < fuel → ∃ (c : Call ε) (cs : List (Call ε)),
          (Write T fuel p buf).state.calls = p.calls ++ c :: cs)) := by
  obtain ⟨h0, h1, h2⟩ := hok
  obtain ⟨k, hk⟩ := Int.eq_ofNat_of_zero_le h0
  refine ⟨fun hfit => ⟨k, hk, ?_⟩, fun hover => ⟨?_, fun hfuel => ?_⟩⟩
  · have hc : ¬ p.wbuf.pos + (buf.length : Int) > p.wbuf.limit := by omega
    unfold Write writeFlush
    rw [if_neg hc]
    simp only []
    rw [writeCopy_eq p buf k hk (by omega)]
    have hmin : min (p.wbuf.buffer.length - k) buf.length = buf.length := by omega
    rw [hmin, List.take_of_length_le (le_refl _), hk]
    push_cast
    rfl
  · have hc : p.wbuf.pos + (buf.length : Int) > p.wbuf.limit := by omega
    unfold Write writeFlush
    rw [if_pos hc]
  · have hc : p.wbuf.pos + (buf.length : Int) > p.wbuf.limit := by omega
    obtain ⟨f, hf⟩ : ∃ f, fuel = f + 1 := ⟨fuel - 1, by omega⟩
    subst hf
    rw [(Write_state T (f + 1) p buf).1]
    unfold writeFlush
    rw [if_pos hc]
    exact Flush_calls_nonempty T f p h0 (by omega)

/-- C17 at capacity 2 with one byte (5) pending: a `Write` of the byte 7 fits,
makes no underlying call and leaves 5, 7 buffered. -/
theorem C17_write_flushes_iff_overflow_witness :
    ∃ k : Nat, demoState.wbuf.pos = (k : Int) ∧
      Write (steady 1) 3 demoState [7] =
        .ret ((([7] : List Byte).length : Int), none)
          { demoState with
            wbuf :=
              { buffer := demoState.wbuf.buffer.take k ++
                  ([7] ++ demoState.wbuf.buffer.drop (k + ([7] : List Byte).length))
                pos := demoState.wbuf.pos + (([7] : List Byte).length : Int)
                limit := demoState.wbuf.limit } } :=
  (C17_write_flushes_iff_overflow (steady 1) 3 demoState [7] (by decide) rfl).1 (by decide)

/-! ## C18: a read served from the read buffer -/

/-- C18: when the read buffer holds unconsumed bytes (`0 ≤ pos < limit ≤
capacity`), `Read(buf)` makes no call on the underlying transport, whatever
that transport has queued: it returns `n = min(len(buf), limit - pos)` with a
nil error, the first `n` bytes of `buf` are `buffer[pos : pos+n]`, the rest of
`buf` is untouched, `pos` advances by `n`, and `limit`, the buffer contents,
the write buffer and the underlying transport are as before. -/
theorem C18_read_buffered (T : TTransport σ ε) (p : TBufferedTransport σ ε)
    (buf : List Byte) (hok : p.rbuf.ok) (hlt : p.rbuf.pos < p.rbuf.limit) :
    ∃ a b : Nat, p.rbuf.pos = (a : Int) ∧ p.rbuf.limit = (b : Int) ∧
      Read T p buf =
        .ret
          { n := ((min buf.length (b - a) : Nat) : Int)
            err := none
            buf := (p.rbuf.buffer.drop a).take (min buf.length (b - a)) ++
              buf.drop (min buf.length (b - a)) }
          { p with
            rbuf := { p.rbuf with pos := p.rbuf.pos + ((min buf.length (b - a) : Nat) : Int) } } := by
  obtain ⟨h0, h1, h2⟩ := hok
  obtain ⟨a, ha⟩ := Int.eq_ofNat_of_zero_le h0
  obtain ⟨b, hb⟩ := Int.eq_ofNat_of_zero_le (le_trans h0 h1)
  refine ⟨a, b, ha, hb, ?_⟩
  unfold Read
  rw [if_neg (by omega), readCopy_eq p buf a b ha hb (by omega) (by omega), ha]
  push_cast
  rfl

/-- C18 with the bytes 2, 3 read ahead, for a caller buffer of three bytes:
two bytes are returned and the underlying transport, which has more, is not
called. -/
theorem C18_read_buffered_witness :
    ∃ a b : Nat, demoRead.rbuf.pos = (a : Int) ∧ demoRead.rbuf.limit = (b : Int) ∧
      Read (ticker 9) demoRead [0, 0, 0] =
        .ret
          { n := ((min ([0, 0, 0] : List Byte).length (b - a) : Nat) : Int)
            err := none
            buf := (demoRead.rbuf.buffer.drop a).take (min ([0, 0, 0] : List Byte).length (b - a)) ++
              ([0, 0, 0] : List Byte).drop (min ([0, 0, 0] : List Byte).length (b - a)) }
          { demoRead with
            rbuf := { demoRead.rbuf with
              pos := demoRead.rbuf.pos +
                ((min ([0, 0, 0] : List Byte).length (b - a) : Nat) : Int) } } :=
  C18_read_buffered (ticker 9) demoRead [0, 0, 0] (by decide) (by decide)

/-! ## C19: the read path and the write path -/

theorem readCopy_frame (p : TBufferedTransport σ ε) (buf : List Byte) :
    (readCopy p buf).state.calls = p.calls ∧ (readCopy p buf).state.wbuf = p.wbuf := by
  unfold readCopy
  split <;> simp [Res.state]

/-- What `Read` leaves alone and what it calls: the write buffer is unchanged
and every call added to the history is a `Read`. -/
theorem Read_frame (T : TTransport σ ε) (p : TBufferedTransport σ ε) (buf : List Byte) :
    (Read T p buf).state.wbuf = p.wbuf ∧
      ∃ cs : List (Call ε), (Read T p buf).state.calls = p.calls ++ cs ∧
        ∀ c ∈ cs, c.isRead = true := by
  unfold Read
  split
  · cases herr : (T.Read p.tp p.rbuf.buffer).err with
    | some e =>
      simp only [refill, herr]
      exact ⟨rfl, [_], rfl, by simp [Call.isRead]⟩
    | none =>
      simp only [refill, herr]
      obtain ⟨f1, f2⟩ := readCopy_frame
        { p with
          tp := (T.Read p.tp p.rbuf.buffer).tp
          rbuf :=
            { buffer := refit p.rbuf.buffer (T.Read p.tp p.rbuf.buffer).filled
              pos := 0
              limit := (T.Read p.tp p.rbuf.buffer).n }
          calls := p.calls ++ [Call.Read p.rbuf.buffer
            (refit p.rbuf.buffer (T.Read p.tp p.rbuf.buffer).filled)
            (T.Read p.tp p.rbuf.buffer).n none] } buf
      exact ⟨f2, [_], f1, by simp [Call.isRead]⟩
  · obtain ⟨f1, f2⟩ := readCopy_frame p buf
    exact ⟨f2, [], by rw [f1]; simp, by simp⟩

/-- C19: the read path and the write path are independent.  `Read` and `Peek`
leave the write buffer (contents, `pos`, `limit`) unchanged, and the only calls
they make on the underlying transport are `Read` calls and `Peek` calls
respectively; `Write` and `Flush` leave the read buffer (contents, `pos`,
`limit`) unchanged, and the only calls they make are `Write` and `Flush`
calls.  This holds for every outcome of the call. -/
theorem C19_paths_independent (T : TTransport σ ε) (fuel : Nat)
    (p : TBufferedTransport σ ε) (buf : List Byte) :
    ((Read T p buf).state.wbuf = p.wbuf ∧
      ∃ cs : List (Call ε), (Read T p buf).state.calls = p.calls ++ cs ∧
        ∀ c ∈ cs, c.isRead = true) ∧
    ((Peek T p).state.wbuf = p.wbuf ∧
      ∃ cs : List (Call ε), (Peek T p).state.calls = p.calls ++ cs ∧
        ∀ c ∈ cs, c.isPeek = true) ∧
    ((Write T fuel p buf).state.rbuf = p.rbuf ∧
      ∃ cs : List (Call ε), (Write T fuel p buf).state.calls = p.calls ++ cs ∧
        ∀ c ∈ cs, c.isWrite = true ∨ c.isFlush = true) ∧
    ((Flush T fuel p).state.rbuf = p.rbuf ∧
      ∃ cs : List (Call ε), (Flush T fuel p).state.calls = p.calls ++ cs ∧
        ∀ c ∈ cs, c.isWrite = true ∨ c.isFlush = true) := by
  have hFlush : (Flush T fuel p).state.rbuf = p.rbuf ∧
      ∃ cs : List (Call ε), (Flush T fuel p).state.calls = p.calls ++ cs ∧
        ∀ c ∈ cs, c.isWrite = true ∨ c.isFlush = true :=
    ⟨(flushLoop_frame T fuel 0 p).1, flushLoop_calls T fuel 0 p⟩
  refine ⟨Read_frame T p buf, ?_, ?_, hFlush⟩
  · unfold Peek
    split
    · exact ⟨rfl, [], by simp [Res.state], by simp⟩
    · exact ⟨rfl, [_], rfl, by simp [Call.isPeek]⟩
  · obtain ⟨w1, w2, _⟩ := Write_state T fuel p buf
    rw [w1, w2]
    unfold writeFlush
    split
    · exact hFlush
    · exact ⟨rfl, [], by simp [Res.state], by simp⟩

/-! ## C20: a flush after a failed flush -/

theorem hiccup_sound : WriteSound hiccup := by
  intro s sl hne
  have : 1 ≤ sl.length := by
    cases sl with
    | nil => exact absurd rfl hne
    | cons x xs => simp
  by_cases h : s = 1
  · simp [hiccup, h]
  · simp only [hiccup, if_neg h]
    refine ⟨by omega, by omega, fun _ => by omega⟩

/-- C20: with `k` bytes buffered over an underlying transport whose `Write`
answers counts within the slice handed over (at least 1 when it answers no
error), `Flush` returns; when one of its underlying `Write` calls answered an
error, `Flush` returns that error, has not called the underlying `Flush`, and
leaves the write buffer (`pos`, contents, `limit`) unchanged, the underlying
transport having taken the first `j` buffered bytes for some `j ≤ k`; and a
following `Flush` that returns a nil error hands the underlying transport the
whole of `buffer[0:k]` again, so that over the two calls it received
`buffer[0:j]` followed by `buffer[0:k]`: the first `j` bytes twice. -/
theorem C20_flush_failure_resend (T : TTransport σ ε) (hS : WriteSound T)
    (p : TBufferedTransport σ ε) (k fuel : Nat) (hk : p.wbuf.pos = (k : Int))
    (hle : k ≤ p.wbuf.buffer.length) (hf : k ≤ fuel) :
    ∃ (r : Option ε) (q : TBufferedTransport σ ε) (cs : List (Call ε)),
      Flush T fuel p = .ret r q ∧ q.calls = p.calls ++ cs ∧
      ∀ given n e, Call.Write given n (some e) ∈ cs →
        r = some e ∧ (∀ c ∈ cs, c.isFlush = false) ∧ q.wbuf = p.wbuf ∧
        ∃ j : Nat, j ≤ k ∧ sent cs = p.wbuf.buffer.take j ∧
          ∀ (fuel2 : Nat) (q2 : TBufferedTransport σ ε), k ≤ fuel2 →
            Flush T fuel2 q = .ret none q2 →
            ∃ cs2 : List (Call ε), q2.calls = q.calls ++ cs2 ∧
              sent cs2 = p.wbuf.buffer.take k ∧
              sent (cs ++ cs2) = p.wbuf.buffer.take j ++ p.wbuf.buffer.take k ∧
              q2.wbuf.pos = 0 := by
  obtain ⟨ws, hws, _, hcase⟩ :=
    flushLoop_run T hS fuel 0 k p hk (Nat.zero_le _) hle (by omega)
  rcases hcase with ⟨s, hrun, _, hnone⟩ | ⟨e, s, sl, j, _, hrun, _, hj, hs, ws0, hw0, hnone⟩
  · refine ⟨_, _, ws ++ [Call.Flush (T.Flush s).1], hrun, by simp, ?_⟩
    intro given n e hmem
    exfalso
    rcases List.mem_append.1 hmem with h | h
    · have := hnone _ h
      simp [Call.err] at this
    · simp at h
  · refine ⟨_, _, ws, hrun, rfl, ?_⟩
    intro given n e1 hmem
    have he : e1 = e := by
      rw [hw0] at hmem
      rcases List.mem_append.1 hmem with h | h
      · have := hnone _ h
        simp [Call.err] at this
      · simp only [List.mem_singleton, Call.Write.injEq] at h
        exact Option.some.inj h.2.2
    subst he
    have hnf : ∀ c ∈ ws, c.isFlush = false := by
      intro c hc
      have := hws c hc
      cases c <;> simp_all [Call.isWrite, Call.isFlush]
    simp only [List.drop_zero, Nat.sub_zero] at hj hs
    refine ⟨rfl, hnf, rfl, j, hj, hs, ?_⟩
    intro fuel2 q2 hf2 h2
    obtain ⟨ws2, _, _, hcase2⟩ :=
      flushLoop_run T hS fuel2 0 k
        { p with tp := (T.Write s sl).tp, calls := p.calls ++ ws } hk (Nat.zero_le _) hle
        (by omega)
    simp only [Nat.cast_zero] at hcase2
    rcases hcase2 with ⟨s2, hrun2, hs2, _⟩ | ⟨e2, s2, sl2, j2, _, hrun2, _⟩
    · unfold Flush at h2
      rw [hrun2] at h2
      simp only [Res.ret.injEq] at h2
      obtain ⟨_, hq2⟩ := h2
      simp only [List.drop_zero, Nat.sub_zero] at hs2
      refine ⟨ws2 ++ [Call.Flush (T.Flush s2).1], ?_, ?_, ?_, ?_⟩
      · rw [← hq2]
        simp
      · simp [sent_append, sent, accepted, hs2]
      · simp [sent_append, sent, accepted, hs2, hs]
      · rw [← hq2]
    · unfold Flush at h2
      rw [hrun2] at h2
      simp at h2

/-- C20 with the bytes 5, 6 buffered over an underlying transport whose second
`Write` call fails: the first `Flush` returns error 7 after the byte 5 was
taken, the next `Flush` returns nil, and the underlying transport has received
5, 5, 6. -/
theorem C20_flush_failure_resend_witness :
    (∃ (r : Option Nat) (q : TBufferedTransport Nat Nat) (cs : List (Call Nat)),
      Flush hiccup 2 (demoFull 0) = .ret r q ∧ q.calls = (demoFull 0).calls ++ cs ∧
      ∀ given n e, Call.Write given n (some e) ∈ cs →
        r = some e ∧ (∀ c ∈ cs, c.isFlush = false) ∧ q.wbuf = (demoFull 0).wbuf ∧
        ∃ j : Nat, j ≤ 2 ∧ sent cs = (demoFull 0).wbuf.buffer.take j ∧
          ∀ (fuel2 : Nat) (q2 : TBufferedTransport Nat Nat), 2 ≤ fuel2 →
            Flush hiccup fuel2 q = .ret none q2 →
            ∃ cs2 : List (Call Nat), q2.calls = q.calls ++ cs2 ∧
              sent cs2 = (demoFull 0).wbuf.buffer.take 2 ∧
              sent (cs ++ cs2) =
                (demoFull 0).wbuf.buffer.take j ++ (demoFull 0).wbuf.buffer.take 2 ∧
              q2.wbuf.pos = 0) ∧
      (Flush hiccup 2 (demoFull 0)).value = some (some 7) ∧
      (Flush hiccup 2 (Flush hiccup 2 (demoFull 0)).state).value = some none ∧
      sent (Flush hiccup 2 (Flush hiccup 2 (demoFull 0)).state).state.calls = [5, 5, 6] :=
  ⟨C20_flush_failure_resend hiccup hiccup_sound (demoFull 0) 2 2 rfl (by decide) (le_refl 2),
    by decide, by decide, by decide⟩

/-! ## C15: binary values in the Simple JSON protocol -/

theorem base64Index_char (i : Nat) (h : i < 64) : base64Index (base64Char i) = some i := by
  have key : ∀ j : Fin 64, base64Index (base64Char j.val) = some j.val := by decide
  exact key ⟨i, h⟩

theorem base64Char_ne_pad (i : Nat) (h : i < 64) : base64Char i ≠ '=' := by
  have key : ∀ j : Fin 64, base64Char j.val ≠ '=' := by decide
  exact key ⟨i, h⟩

theorem base64Char_plain (i : Nat) :
    escapeChar (base64Char i) = [base64Char i] ∧ base64Char i ≠ '"' := by
  by_cases h : i < 64
  · have key : ∀ j : Fin 64,
        escapeChar (base64Char j.val) = [base64Char j.val] ∧ base64Char j.val ≠ '"' := by
      decide
    exact key ⟨i, h⟩
  · have hd : base64Char i = '=' := by
      unfold base64Char
      exact List.getD_eq_default _ _ (by
        have : base64Alphabet.length = 64 := by decide
        omega)
    rw [hd]
    decide

theorem byte_ofNat (a : Byte) (n : Nat) (h : n = a.val) : (Fin.ofNat n : Byte) = a := by
  apply Fin.ext
  subst h
  simp [Fin.ofNat]

theorem decodeQuad_encode (a b c : Byte) :
    decodeQuad (base64Char (a.val / 4)) (base64Char (a.val % 4 * 16 + b.val / 16))
        (base64Char (b.val % 16 * 4 + c.val / 64)) (base64Char (c.val % 64)) =
      some [a, b, c] := by
  have ha := a.isLt
  have hb := b.isLt
  have hc := c.isLt
  unfold decodeQuad
  rw [base64Index_char _ (by omega), base64Index_char _ (by omega),
    base64Index_char _ (by omega), base64Index_char _ (by omega)]
  simp only [Option.some.injEq, List.cons.injEq, and_true]
  exact ⟨byte_ofNat a _ (by omega), byte_ofNat b _ (by omega), byte_ofNat c _ (by omega)⟩

theorem decodeLast_full (a b c : Byte) :
    decodeLast (base64Char (a.val / 4)) (base64Char (a.val % 4 * 16 + b.val / 16))
        (base64Char (b.val % 16 * 4 + c.val / 64)) (base64Char (c.val % 64)) =
      some [a, b, c] := by
  have hc := c.isLt
  unfold decodeLast
  rw [if_neg (base64Char_ne_pad _ (by omega))]
  exact decodeQuad_encode a b c

theorem decodeLast_two (a b : Byte) :
    decodeLast (base64Char (a.val / 4)) (base64Char (a.val % 4 * 16 + b.val / 16))
        (base64Char (b.val % 16 * 4)) '=' = some [a, b] := by
  have ha := a.isLt
  have hb := b.isLt
  unfold decodeLast
  rw [if_pos rfl, if_neg (base64Char_ne_pad _ (by omega)),
    base64Index_char _ (by omega), base64Index_char _ (by omega),
    base64Index_char _ (by omega)]
  simp only [Option.some.injEq, List.cons.injEq, and_true]
  exact ⟨byte_ofNat a _ (by omega), byte_ofNat b _ (by omega)⟩

theorem decodeLast_one (a : Byte) :
    decodeLast (base64Char (a.val / 4)) (base64Char (a.val % 4 * 16)) '=' '=' = some [a] := by
  have ha := a.isLt
  unfold decodeLast
  rw [if_pos rfl, if_pos rfl, base64Index_char _ (by omega), base64Index_char _ (by omega)]
  simp only [Option.some.injEq, List.cons.injEq, and_true]
  exact byte_ofNat a _ (by omega)

theorem base64Encode_eq_nil (b : List Byte) (h : base64Encode b = []) : b = [] := by
  match b with
  | [] => rfl
  | [_] => simp [base64Encode] at h
  | [_, _] => simp [base64Encode] at h
  | _ :: _ :: _ :: _ => simp [base64Encode] at h

/-- Decoding the base64 text of a byte sequence gives the sequence back. -/
theorem base64Decode_encode : ∀ b : List Byte, base64Decode (base64Encode b) = some b
  | [] => by simp [base64Encode, base64Decode]
  | [a] => by
    simp only [base64Encode, base64Decode]
    exact decodeLast_one a
  | [a, b] => by
    simp only [base64Encode, base64Decode]
    exact decodeLast_two a b
  | a :: b :: c :: rest => by
    have ih := base64Decode_encode rest
    simp only [base64Encode, base64Decode]
    by_cases hr : base64Encode rest = []
    · rw [if_pos hr]
      have := base64Encode_eq_nil rest hr
      subst this
      exact decodeLast_full a b c
    · rw [if_neg hr, decodeQuad_encode, ih]
      rfl

/-- The base64 text of `n` bytes has `4 * ⌈n / 3⌉` characters. -/
theorem length_base64Encode : ∀ b : List Byte,
    (base64Encode b).length = 4 * ((b.length + 2) / 3)
  | [] => by simp [base64Encode]
  | [_] => by simp [base64Encode]
  | [_, _] => by simp [base64Encode]
  | _ :: _ :: _ :: rest => by
    have ih := length_base64Encode rest
    simp only [base64Encode, List.length_cons, ih]
    omega

/-- No character of a base64 text needs escaping, and none is a quote. -/
theorem base64Encode_plain : ∀ b : List Byte,
    escape (base64Encode b) = base64Encode b ∧ ∀ c ∈ base64Encode b, c ≠ '"'
  | [] => by simp [base64Encode, escape]
  | [a] => by
    have h1 := base64Char_plain (a.val / 4)
    have h2 := base64Char_plain (a.val % 4 * 16)
    have h3 : escapeChar '=' = ['='] := by decide
    have h4 : '=' ≠ '"' := by decide
    refine ⟨by simp [base64Encode, escape, h1.1, h2.1, h3], ?_⟩
    intro c hc
    simp only [base64Encode, List.mem_cons, List.mem_singleton, List.not_mem_nil, or_false] at hc
    rcases hc with h | h | h | h <;> subst h
    · exact h1.2
    · exact h2.2
    · exact h4
    · exact h4
  | [a, b] => by
    have h1 := base64Char_plain (a.val / 4)
    have h2 := base64Char_plain (a.val % 4 * 16 + b.val / 16)
    have h5 := base64Char_plain (b.val % 16 * 4)
    have h3 : escapeChar '=' = ['='] := by decide
    have h4 : '=' ≠ '"' := by decide
    refine ⟨by simp [base64Encode, escape, h1.1, h2.1, h5.1, h3], ?_⟩
    intro c hc
    simp only [base64Encode, List.mem_cons, List.mem_singleton, List.not_mem_nil, or_false] at hc
    rcases hc with h | h | h | h <;> subst h
    · exact h1.2
    · exact h2.2
    · exact h5.2
    · exact h4
  | a :: b :: c :: rest => by
    have ih := base64Encode_plain rest
    have h1 := base64Char_plain (a.val / 4)
    have h2 := base64Char_plain (a.val % 4 * 16 + b.val / 16)
    have h3 := base64Char_plain (b.val % 16 * 4 + c.val / 64)
    have h4 := base64Char_plain (c.val % 64)
    refine ⟨by simp [base64Encode, escape, h1.1, h2.1, h3.1, h4.1, ih.1], ?_⟩
    intro x hx
    simp only [base64Encode, List.mem_cons] at hx
    rcases hx with h | h | h | h | h
    · subst h; exact h1.2
    · subst h; exact h2.2
    · subst h; exact h3.2
    · subst h; exact h4.2
    · exact ih.2 x h

theorem base64Encode_forall (P : Char → Prop) (h1 : ∀ i, P (base64Char i)) (h2 : P '=') :
    ∀ b : List Byte, ∀ c ∈ base64Encode b, P c
  | [] => by simp [base64Encode]
  | [a] => by
    intro c hc
    simp only [base64Encode, List.mem_cons, List.mem_singleton, List.not_mem_nil, or_false] at hc
    rcases hc with h | h | h | h <;> subst h <;> first | exact h1 _ | exact h2
  | [a, b] => by
    intro c hc
    simp only [base64Encode, List.mem_cons, List.mem_singleton, List.not_mem_nil, or_false] at hc
    rcases hc with h | h | h | h <;> subst h <;> first | exact h1 _ | exact h2
  | a :: b :: c :: rest => by
    intro x hx
    simp only [base64Encode, List.mem_cons] at hx
    rcases hx with h | h | h | h | h
    · subst h; exact h1 _
    · subst h; exact h1 _
    · subst h; exact h1 _
    · subst h; exact h1 _
    · exact base64Encode_forall P h1 h2 rest x h

theorem base64Char_mem (i : Nat) : base64Char i ∈ base64Alphabet ∨ base64Char i = '=' := by
  by_cases h : i < 64
  · have key : ∀ j : Fin 64, base64Char j.val ∈ base64Alphabet := by decide
    exact Or.inl (key ⟨i, h⟩)
  · right
    unfold base64Char
    exact List.getD_eq_default _ _ (by
      have : base64Alphabet.length = 64 := by decide
      omega)

theorem span_quote (l more : List Char) (h : ∀ c ∈ l, c ≠ '"') :
    (l ++ '"' :: more).takeWhile (fun x => x != '"') = l ∧
      (l ++ '"' :: more).dropWhile (fun x => x != '"') = '"' :: more := by
  induction l with
  | nil => simp [List.takeWhile, List.dropWhile]
  | cons c cs ih =>
    have hc : c ≠ '"' := h c (List.mem_cons_self _ _)
    have ht := ih (fun d hd => h d (List.mem_cons_of_mem _ hd))
    have hb : (c != '"') = true := by simp [hc]
    simp only [List.cons_append, List.takeWhile, List.dropWhile, hb]
    exact ⟨congrArg (List.cons c) ht.1, ht.2⟩

/-- Reading back a quoted base64 text gives the bytes and the input that
follows the closing quote. -/
theorem ReadBinary_quoted (b : List Byte) (more : List Char) :
    ReadBinary ('"' :: base64Encode b ++ '"' :: more) = some (b, more) := by
  obtain ⟨ht, hd⟩ := span_quote (base64Encode b) more (base64Encode_plain b).2
  simp only [ReadBinary, List.cons_append, if_pos, ht, hd, base64Decode_encode]

/-- C15: for every byte sequence `b` (of any length), `WriteBinary` on a new
protocol emits a double quote, the padded standard-alphabet base64 text of `b`
(of `4 * ⌈len(b) / 3⌉` characters, each of the alphabet or the padding `=`),
and a double quote, and `ReadBinary` of that text returns exactly `b`, nothing
of the text being left; for the bytes 0, 1, 2 the base64 text is `AAEC`. -/
theorem C15_binary_roundtrip (b : List Byte) :
    (WriteBinary NewTSimpleJSONProtocol b).out = '"' :: base64Encode b ++ ['"'] ∧
      (base64Encode b).length = 4 * ((b.length + 2) / 3) ∧
      (∀ c ∈ base64Encode b, c ∈ base64Alphabet ∨ c = '=') ∧
      base64Decode (base64Encode b) = some b ∧
      ReadBinary (WriteBinary NewTSimpleJSONProtocol b).out = some (b, []) ∧
      (WriteBinary NewTSimpleJSONProtocol [0, 1, 2]).out = ['"', 'A', 'A', 'E', 'C', '"'] := by
  have hw : (WriteBinary NewTSimpleJSONProtocol b).out = '"' :: base64Encode b ++ ['"'] := by
    simp [WriteBinary, writeQuoted, preValue, NewTSimpleJSONProtocol, JsonQuote,
      (base64Encode_plain b).1]
  refine ⟨hw, length_base64Encode b,
    base64Encode_forall _ base64Char_mem (Or.inr rfl) b, base64Decode_encode b, ?_, by decide⟩
  rw [hw]
  exact ReadBinary_quoted b []

/-! ## C16: lists and maps in the Simple JSON protocol -/

theorem escape_plain (l : List Char) (h : ∀ c ∈ l, escapeChar c = [c]) : escape l = l := by
  induction l with
  | nil => rfl
  | cons c cs ih =>
    simp only [escape, h c (List.mem_cons_self _ _),
      ih (fun d hd => h d (List.mem_cons_of_mem _ hd))]
    rfl

theorem digitChar_plain (d : Nat) (h : d < 10) :
    escapeChar (Nat.digitChar d) = [Nat.digitChar d] := by
  have key : ∀ j : Fin 10, escapeChar (Nat.digitChar j.val) = [Nat.digitChar j.val] := by
    decide
  exact key ⟨d, h⟩

theorem toDigitsCore_plain : ∀ (fuel n : Nat) (acc : List Char),
    (∀ c ∈ acc, escapeChar c = [c]) →
      ∀ c ∈ Nat.toDigitsCore 10 fuel n acc, escapeChar c = [c] := by
  intro fuel
  induction fuel with
  | zero =>
    intro n acc hacc
    simpa [Nat.toDigitsCore] using hacc
  | succ fuel ih =>
    intro n acc hacc
    have hd := digitChar_plain (n % 10) (Nat.mod_lt _ (by decide))
    have hacc2 : ∀ c ∈ Nat.digitChar (n % 10) :: acc, escapeChar c = [c] := by
      intro c hc
      rcases List.mem_cons.1 hc with h | h
      · subst h; exact hd
      · exact hacc c h
    unfold Nat.toDigitsCore
    simp only []
    split
    · exact hacc2
    · exact ih _ _ hacc2

/-- The decimal text of an integer needs no escaping: as a quoted string it
is the text between two quotes. -/
theorem JsonQuote_decimal (v : Int) : JsonQuote (decimal v) = '"' :: decimal v ++ ['"'] := by
  have hplain : ∀ c ∈ decimal v, escapeChar c = [c] := by
    unfold decimal
    split
    · intro c hc
      rcases List.mem_cons.1 hc with h | h
      · subst h; decide
      · exact toDigitsCore_plain _ _ [] (by simp) c h
    · exact toDigitsCore_plain _ _ [] (by simp)
  simp [JsonQuote, escape_plain _ hplain]

theorem WriteDouble_list {F : Type} (numText : F → List Char) (p : TSimpleJSONProtocol)
    (first : Bool) (cs : List JSONContext) (h : p.ctx = .list first :: cs) (d : TDouble F) :
    WriteDouble numText p d =
      { out := p.out ++ ((if first then [] else [',']) ++ doubleText numText d)
        ctx := .list false :: cs } := by
  cases d <;> cases first <;>
    simp [WriteDouble, writeScalar, writeQuoted, preValue, h, doubleText]

theorem WriteDouble_value {F : Type} (numText : F → List Char) (p : TSimpleJSONProtocol)
    (cs : List JSONContext) (h : p.ctx = .mapValue :: cs) (d : TDouble F) :
    WriteDouble numText p d =
      { out := p.out ++ (':' :: doubleText numText d), ctx := .mapKey false :: cs } := by
  cases d <;> simp [WriteDouble, writeScalar, writeQuoted, preValue, h, doubleText]

theorem WriteI32_key (p : TSimpleJSONProtocol) (first : Bool) (cs : List JSONContext)
    (h : p.ctx = .mapKey first :: cs) (k : Int) :
    WriteI32 p k =
      { out := p.out ++ ((if first then [] else [',']) ++ ('"' :: decimal k ++ ['"']))
        ctx := .mapValue :: cs } := by
  cases first <;> simp [WriteI32, writeScalar, preValue, h, JsonQuote_decimal]

theorem commaSeparated_cons (t : List Char) (ts : List (List Char)) :
    commaSeparated (t :: ts) = t ++ commaPrefixed ts := by
  induction ts generalizing t with
  | nil => simp [commaSeparated, commaPrefixed]
  | cons u us ih => simp [commaSeparated, commaPrefixed, ih]

theorem commaSeparated_eq_intercalate : ∀ ts : List (List Char),
    commaSeparated ts = List.intercalate [','] ts
  | [] => by simp [commaSeparated, List.intercalate]
  | [t] => by simp [commaSeparated, List.intercalate]
  | t :: u :: ts => by
    have ih := commaSeparated_eq_intercalate (u :: ts)
    simp only [commaSeparated, List.intercalate, List.intersperse] at ih ⊢
    rw [ih]
    simp

theorem writeDoubles_rest {F : Type} (numText : F → List Char) (ds : List (TDouble F)) :
    ∀ (p : TSimpleJSONProtocol) (cs : List JSONContext), p.ctx = .list false :: cs →
      writeDoubles numText p ds =
        { out := p.out ++ commaPrefixed (ds.map (doubleText numText))
          ctx := .list false :: cs } := by
  induction ds with
  | nil =>
    intro p cs h
    cases p
    simp_all [writeDoubles, commaPrefixed]
  | cons d ds ih =>
    intro p cs h
    rw [writeDoubles, WriteDouble_list numText p false cs h d, ih _ cs rfl]
    simp [commaPrefixed]

theorem writePairs_rest {F : Type} (numText : F → List Char) (kvs : List (Int × TDouble F)) :
    ∀ (p : TSimpleJSONProtocol) (cs : List JSONContext), p.ctx = .mapKey false :: cs →
      writePairs numText p kvs =
        { out := p.out ++ commaPrefixed (kvs.map (pairText numText))
          ctx := .mapKey false :: cs } := by
  induction kvs with
  | nil =>
    intro p cs h
    cases p
    simp_all [writePairs, commaPrefixed]
  | cons kv kvs ih =>
    intro p cs h
    rw [writePairs, WriteI32_key p false cs h kv.1, WriteDouble_value numText _ cs rfl kv.2,
      ih _ cs rfl]
    simp [commaPrefixed, pairText]

/-- C16: on a new protocol, for every list of N doubles, `WriteListBegin`, the
N `WriteDouble` calls and `WriteListEnd` emit `[`, the texts of the elements
in their order separated by single commas, and `]`; for every sequence of N
pairs of an integer key and a double, `WriteMapBegin`, the alternating
`WriteI32` and `WriteDouble` calls and `WriteMapEnd` emit an opening brace, the
N entries in write order separated by single commas, each entry being the
decimal key between quotes, a colon and the value, and a closing brace.  The
text of a value is the text `WriteDouble` emits outside a container, while a
key outside a container would be its bare decimal text; both runs leave no
container open.  The comma-separated text is `List.intercalate`.  With the
finite value 7 rendered as `7`, the map of 0 to 7 and -1 to NaN is written
as an opening brace, `"0":7,"-1":"NaN"` and a closing brace. -/
theorem C16_list_and_map {F : Type} (numText : F → List Char) (ds : List (TDouble F))
    (kvs : List (Int × TDouble F)) (t kt vt : TType) (n : Int) :
    WriteListEnd (writeDoubles numText (WriteListBegin NewTSimpleJSONProtocol t n) ds) =
        { out := '[' :: commaSeparated (ds.map (doubleText numText)) ++ [']'], ctx := [] } ∧
      WriteMapEnd (writePairs numText (WriteMapBegin NewTSimpleJSONProtocol kt vt n) kvs) =
        { out := '\x7b' :: commaSeparated (kvs.map (pairText numText)) ++ ['\x7d']
          ctx := [] } ∧
      (ds.map (doubleText numText)).length = ds.length ∧
      (kvs.map (pairText numText)).length = kvs.length ∧
      (∀ kv : Int × TDouble F, pairText numText kv =
        ('"' :: decimal kv.1 ++ ['"']) ++ ':' :: doubleText numText kv.2) ∧
      (∀ d : TDouble F, (WriteDouble numText NewTSimpleJSONProtocol d).out =
        doubleText numText d) ∧
      (∀ k : Int, (WriteI32 NewTSimpleJSONProtocol k).out = decimal k) ∧
      (∀ ts : List (List Char), commaSeparated ts = List.intercalate [','] ts) ∧
      (WriteMapEnd (writePairs (fun x : Nat => Nat.toDigits 10 x)
          (WriteMapBegin NewTSimpleJSONProtocol TType.I32 TType.DOUBLE 2)
          [(0, TDouble.finite 7), (-1, TDouble.nan)])).out =
        ['\x7b', '"', '0', '"', ':', '7', ',', '"', '-', '1', '"', ':', '"', 'N', 'a', 'N', '"',
          '\x7d'] := by
  refine ⟨?_, ?_, by simp, by simp, fun _ => rfl, ?_, ?_, commaSeparated_eq_intercalate,
    by decide⟩
  · cases ds with
    | nil => simp [WriteListEnd, writeDoubles, WriteListBegin, preValue,
        NewTSimpleJSONProtocol, commaSeparated]
    | cons d ds =>
      rw [writeDoubles, WriteDouble_list numText _ true [] rfl d,
        writeDoubles_rest numText ds _ [] rfl]
      simp [WriteListEnd, WriteListBegin, preValue, NewTSimpleJSONProtocol,
        commaSeparated_cons]
  · cases kvs with
    | nil => simp [WriteMapEnd, writePairs, WriteMapBegin, preValue,
        NewTSimpleJSONProtocol, commaSeparated]
    | cons kv kvs =>
      rw [writePairs, WriteI32_key _ true [] rfl kv.1,
        WriteDouble_value numText _ [] rfl kv.2, writePairs_rest numText kvs _ [] rfl]
      simp [WriteMapEnd, WriteMapBegin, preValue, NewTSimpleJSONProtocol,
        commaSeparated_cons, pairText]
  · intro d
    cases d <;>
      simp [WriteDouble, writeScalar, writeQuoted, preValue, NewTSimpleJSONProtocol,
        doubleText]
  · intro k
    simp [WriteI32, writeScalar, preValue, NewTSimpleJSONProtocol]

/-! ## C21: termination of `Flush` -/

/-- The flush loop from cursor `a` with `b` bytes buffered, over an underlying
transport whose non-failing writes of a non-empty slice accept at least one
byte of it: with fuel for `b - a` iterations it returns, after at most `b - a`
underlying `Write` calls followed by at most one underlying `Flush`. -/
theorem flushLoop_terminates (T : TTransport σ ε) (hP : WriteFailsOrAccepts T) :
    ∀ (fuel a b : Nat) (p : TBufferedTransport σ ε),
      p.wbuf.pos = (b : Int) → a ≤ b → b ≤ p.wbuf.buffer.length → b - a ≤ fuel →
      ∃ (r : Option ε) (q : TBufferedTransport σ ε) (ws fl : List (Call ε)),
        flushLoop T fuel (a : Int) p = .ret r q ∧ q.calls = p.calls ++ ws ++ fl ∧
        (∀ c ∈ ws, c.isWrite = true) ∧ ws.length ≤ b - a ∧
        (∀ c ∈ fl, c.isFlush = true) ∧ fl.length ≤ 1 := by
  intro fuel
  induction fuel with
  | zero =>
    intro a b p hb hab _ hf
    have hEq : a = b := by omega
    subst hEq
    exact ⟨(T.Flush p.tp).1,
      { p with
        tp := (T.Flush p.tp).2
        wbuf := { p.wbuf with pos := 0 }
        calls := p.calls ++ [Call.Flush (T.Flush p.tp).1] },
      [], [Call.Flush (T.Flush p.tp).1], by simp [flushLoop, hb, flushTail],
      by simp, by simp, by simp, by simp [Call.isFlush], by simp⟩
  | succ fuel ih =>
    intro a b p hb hab hlen hf
    by_cases hlt : a < b
    · have hsl := slice_nat p.wbuf.buffer a b hab hlen
      have hne : (p.wbuf.buffer.drop a).take (b - a) ≠ [] := by
        intro h0
        have := congrArg List.length h0
        simp only [List.length_take, List.length_drop, List.length_nil] at this
        omega
      have hlenS : ((p.wbuf.buffer.drop a).take (b - a)).length = b - a := by
        simp only [List.length_take, List.length_drop]
        omega
      cases herr : (T.Write p.tp ((p.wbuf.buffer.drop a).take (b - a))).err with
      | some e =>
        refine ⟨some e,
          { p with
            tp := (T.Write p.tp ((p.wbuf.buffer.drop a).take (b - a))).tp
            calls := p.calls ++ [Call.Write ((p.wbuf.buffer.drop a).take (b - a))
              (T.Write p.tp ((p.wbuf.buffer.drop a).take (b - a))).n (some e)] },
          [Call.Write ((p.wbuf.buffer.drop a).take (b - a))
              (T.Write p.tp ((p.wbuf.buffer.drop a).take (b - a))).n (some e)], [],
          by simp [flushLoop, hb, hlt, hsl, herr], by simp, by simp [Call.isWrite],
          by simp; omega, by simp, by simp⟩
      | none =>
        obtain ⟨h1, h2⟩ := hP p.tp _ hne herr
        rw [hlenS] at h2
        obtain ⟨k, hk⟩ := Int.eq_ofNat_of_zero_le (le_trans (by decide : (0 : Int) ≤ 1) h1)
        obtain ⟨r, q, ws, fl, hrun, hcalls, hws, hwl, hfl, hfll⟩ := ih (a + k) b
          { p with
            tp := (T.Write p.tp ((p.wbuf.buffer.drop a).take (b - a))).tp
            calls := p.calls ++ [Call.Write ((p.wbuf.buffer.drop a).take (b - a))
                (T.Write p.tp ((p.wbuf.buffer.drop a).take (b - a))).n none] }
          hb (by omega) hlen (by omega)
        have hstep : flushLoop T (fuel + 1) (a : Int) p =
            flushLoop T fuel ((a + k : Nat) : Int)
              { p with
                tp := (T.Write p.tp ((p.wbuf.buffer.drop a).take (b - a))).tp
                calls := p.calls ++ [Call.Write ((p.wbuf.buffer.drop a).take (b - a))
                    (T.Write p.tp ((p.wbuf.buffer.drop a).take (b - a))).n none] } := by
          simp [flushLoop, hb, hlt, hsl, herr, hk]
        refine ⟨r, q, Call.Write ((p.wbuf.buffer.drop a).take (b - a))
            (T.Write p.tp ((p.wbuf.buffer.drop a).take (b - a))).n none :: ws, fl,
          by rw [hstep, hrun], by rw [hcalls]; simp, ?_, by simp; omega, hfl, hfll⟩
        intro c hc
        rcases List.mem_cons.1 hc with h | h
        · subst h; rfl
        · exact hws c h
    · have hEq : a = b := by omega
      subst hEq
      exact ⟨(T.Flush p.tp).1,
        { p with
          tp := (T.Flush p.tp).2
          wbuf := { p.wbuf with pos := 0 }
          calls := p.calls ++ [Call.Flush (T.Flush p.tp).1] },
        [], [Call.Flush (T.Flush p.tp).1], by simp [flushLoop, hb, flushTail],
        by simp, by simp, by simp, by simp [Call.isFlush], by simp⟩

/-- The flush loop over an underlying transport whose `Write` answers `(0, nil)`
on every non-empty slice, with `k > 0` bytes buffered: whatever the fuel, the
loop is still running when it is used up, every iteration having handed the
underlying transport the whole of `buffer[0:k]` (so `start` is still 0), with
the write buffer unchanged. -/
theorem flushLoop_stuck (T : TTransport σ ε) (hZ : WriteStuck T) (k : Nat) (hk0 : 0 < k) :
    ∀ (fuel : Nat) (p : TBufferedTransport σ ε),
      p.wbuf.pos = (k : Int) → k ≤ p.wbuf.buffer.length →
      ∃ s : σ, flushLoop T fuel 0 p =
        .spin { p with
          tp := s
          calls := p.calls ++
            List.replicate fuel (Call.Write (p.wbuf.buffer.take k) 0 none) } := by
  intro fuel
  induction fuel with
  | zero =>
    intro p hk _
    have hlt : (0 : Int) < p.wbuf.pos := by omega
    exact ⟨p.tp, by simp [flushLoop, hlt]⟩
  | succ fuel ih =>
    intro p hk hle
    have hlt : (0 : Int) < p.wbuf.pos := by omega
    have hsl := slice_nat p.wbuf.buffer 0 k (Nat.zero_le _) hle
    simp only [Nat.cast_zero, List.drop_zero, Nat.sub_zero] at hsl
    have hne : p.wbuf.buffer.take k ≠ [] := by
      intro h0
      have := congrArg List.length h0
      simp only [List.length_take, List.length_nil] at this
      omega
    obtain ⟨hn, herr⟩ := hZ p.tp _ hne
    obtain ⟨s, hs⟩ := ih
      { p with
        tp := (T.Write p.tp (p.wbuf.buffer.take k)).tp
        calls := p.calls ++ [Call.Write (p.wbuf.buffer.take k) 0 none] } hk hle
    refine ⟨s, ?_⟩
    have hstep : flushLoop T (fuel + 1) 0 p =
        flushLoop T fuel 0
          { p with
            tp := (T.Write p.tp (p.wbuf.buffer.take k)).tp
            calls := p.calls ++ [Call.Write (p.wbuf.buffer.take k) 0 none] } := by
      rw [flushLoop, if_pos hlt, hk, hsl]
      simp only [herr, hn, add_zero]
    rw [hstep, hs]
    simp [List.replicate_succ]

/-- C21: with `k` bytes buffered (`pos = k ≤ capacity`): over an underlying
transport whose `Write` of a non-empty slice either answers an error or
accepts at least one byte of it, `Flush` returns, after at most `k` calls of
the underlying `Write` (followed by at most one underlying `Flush`), as soon as
the fuel covers `k` iterations; and over an underlying transport whose `Write`
answers `(0, nil)` on every non-empty slice, with `k > 0`, the loop never
ends: for every fuel it is still running when the fuel is used up, each
iteration having handed the underlying transport the whole of `buffer[0:k]`,
that is with `start` still 0, below `pos`. -/
theorem C21_flush_termination (T : TTransport σ ε) (p : TBufferedTransport σ ε) (k : Nat)
    (hk : p.wbuf.pos = (k : Int)) (hle : k ≤ p.wbuf.buffer.length) :
    (WriteFailsOrAccepts T → ∀ fuel : Nat, k ≤ fuel →
      ∃ (r : Option ε) (q : TBufferedTransport σ ε) (ws fl : List (Call ε)),
        Flush T fuel p = .ret r q ∧ q.calls = p.calls ++ ws ++ fl ∧
        (∀ c ∈ ws, c.isWrite = true) ∧ ws.length ≤ k ∧
        (∀ c ∈ fl, c.isFlush = true) ∧ fl.length ≤ 1) ∧
    (WriteStuck T → 0 < k → ∀ fuel : Nat,
      ∃ s : σ, Flush T fuel p =
        .spin { p with
          tp := s
          calls := p.calls ++
            List.replicate fuel (Call.Write (p.wbuf.buffer.take k) 0 none) }) := by
  refine ⟨fun hP fuel hf => ?_, fun hZ hk0 fuel => flushLoop_stuck T hZ k hk0 fuel p hk hle⟩
  have h := flushLoop_terminates T hP fuel 0 k p hk (Nat.zero_le _) hle (by omega)
  simpa [Flush] using h

theorem hiccup_fails_or_accepts : WriteFailsOrAccepts hiccup := by
  intro s sl hne herr
  have : 1 ≤ sl.length := by
    cases sl with
    | nil => exact absurd rfl hne
    | cons x xs => simp
  by_cases h : s = 1
  · simp [hiccup, h] at herr
  · simp only [hiccup, if_neg h]
    omega

/-- C21 with the bytes 5, 6 buffered: over a transport whose second `Write`
fails, `Flush` returns after at most two underlying `Write` calls; over a
transport that accepts nothing without an error, `Flush` is still running
after any number of iterations, each of which handed over 5, 6. -/
theorem C21_flush_termination_witness :
    (∃ (r : Option Nat) (q : TBufferedTransport Nat Nat) (ws fl : List (Call Nat)),
        Flush hiccup 2 (demoFull 0) = .ret r q ∧ q.calls = (demoFull 0).calls ++ ws ++ fl ∧
        (∀ c ∈ ws, c.isWrite = true) ∧ ws.length ≤ 2 ∧
        (∀ c ∈ fl, c.isFlush = true) ∧ fl.length ≤ 1) ∧
      (∀ fuel : Nat, ∃ s : Nat, Flush stuck fuel (demoFull 0) =
        .spin { demoFull 0 with
          tp := s
          calls := (demoFull 0).calls ++
            List.replicate fuel (Call.Write ((demoFull 0).wbuf.buffer.take 2) 0 none) }) :=
  ⟨(C21_flush_termination hiccup (demoFull 0) 2 rfl (by decide)).1 hiccup_fails_or_accepts 2
      (le_refl 2),
    (C21_flush_termination stuck (demoFull 0) 2 rfl (by decide)).2
      (fun _ _ _ => ⟨rfl, rfl⟩) (by decide)⟩

/-! ## C22: slices no longer than the capacity -/

theorem slice_length_le (b : List Byte) (lo hi : Int) (sl : List Byte)
    (h : slice b lo hi = some sl) : sl.length ≤ b.length := by
  unfold slice at h
  split at h
  · simp only [Option.some.injEq] at h
    rw [← h]
    simp only [List.length_take, List.length_drop]
    omega
  · cases h

/-- No call the flush loop makes hands the underlying transport more bytes
than the write buffer has, whatever the underlying transport does. -/
theorem flushLoop_handed (T : TTransport σ ε) :
    ∀ (fuel : Nat) (start : Int) (p : TBufferedTransport σ ε),
      ∃ cs : List (Call ε), (flushLoop T fuel start p).state.calls = p.calls ++ cs ∧
        ∀ c ∈ cs, c.handedAtMost p.wbuf.buffer.length = true := by
  intro fuel
  induction fuel with
  | zero =>
    intro start p
    unfold flushLoop
    split
    · exact ⟨[], by simp [Res.state], by simp⟩
    · exact ⟨[Call.Flush (T.Flush p.tp).1], by simp [Res.state, flushTail],
        by simp [Call.handedAtMost]⟩
  | succ fuel ih =>
    intro start p
    unfold flushLoop
    split
    · split
      · exact ⟨[], by simp [Res.state], by simp⟩
      · rename_i sl hs
        have hlen := slice_length_le _ _ _ _ hs
        simp only []
        split
        · exact ⟨[Call.Write sl (T.Write p.tp sl).n (T.Write p.tp sl).err],
            by simp [Res.state], by simp [Call.handedAtMost, hlen]⟩
        · obtain ⟨cs, hcs, hk⟩ := ih (start + (T.Write p.tp sl).n)
            { p with
              tp := (T.Write p.tp sl).tp
              calls := p.calls ++ [Call.Write sl (T.Write p.tp sl).n (T.Write p.tp sl).err] }
          refine ⟨Call.Write sl (T.Write p.tp sl).n (T.Write p.tp sl).err :: cs, ?_, ?_⟩
          · rw [hcs]
            simp
          · intro c hc
            rcases List.mem_cons.1 hc with h | h
            · subst h
              simp [Call.handedAtMost, hlen]
            · exact hk c h
    · exact ⟨[Call.Flush (T.Flush p.tp).1], by simp [Res.state, flushTail],
        by simp [Call.handedAtMost]⟩

/-- No call `Write` makes hands the underlying transport more bytes than the
write buffer has. -/
theorem Write_handed (T : TTransport σ ε) (fuel : Nat) (p : TBufferedTransport σ ε)
    (buf : List Byte) :
    ∃ cs : List (Call ε), (Write T fuel p buf).state.calls = p.calls ++ cs ∧
      ∀ c ∈ cs, c.handedAtMost p.wbuf.buffer.length = true := by
  rw [(Write_state T fuel p buf).1]
  unfold writeFlush
  split
  · exact flushLoop_handed T fuel 0 p
  · exact ⟨[], by simp [Res.state], by simp⟩

/-- Successive `Write` calls over an underlying transport that accepts every
write hand it no slice longer than the write buffer. -/
theorem writeAll_handed (T : TTransport σ ε) (hA : WriteAccepts T) (fuel : Nat)
    (bs : List (List Byte)) :
    ∀ (p : TBufferedTransport σ ε), p.wbuf.ok →
      p.wbuf.limit = (p.wbuf.buffer.length : Int) → p.wbuf.buffer.length ≤ fuel →
      ∀ (rs : List (Int × Option ε)) (q : TBufferedTransport σ ε),
        writeAll T fuel p bs = .ret rs q →
        ∃ cs : List (Call ε), q.calls = p.calls ++ cs ∧
          ∀ c ∈ cs, c.handedAtMost p.wbuf.buffer.length = true := by
  induction bs with
  | nil =>
    intro p _ _ _ rs q h
    simp only [writeAll, Res.ret.injEq] at h
    exact ⟨[], by rw [← h.2]; simp, by simp⟩
  | cons b bs ih =>
    intro p hok hlim hf rs q h
    obtain ⟨n, p1, hw, hok1, hlen1, hlim1, _, _, _, _⟩ :=
      Write_accepts T hA p b fuel hok hlim hf
    obtain ⟨cs1, hc1, hh1⟩ := Write_handed T fuel p b
    rw [hw] at hc1
    simp only [Res.state] at hc1
    simp only [writeAll, hw] at h
    cases hrest : writeAll T fuel p1 bs with
    | ret rs2 q2 =>
      rw [hrest] at h
      simp only [Res.ret.injEq] at h
      obtain ⟨cs2, hc2, hh2⟩ :=
        ih p1 hok1 (by rw [hlim1, hlim, hlen1]) (by omega) rs2 q2 hrest
      refine ⟨cs1 ++ cs2, by rw [← h.2, hc2, hc1, List.append_assoc], ?_⟩
      intro c hc
      rcases List.mem_append.1 hc with hm | hm
      · exact hh1 c hm
      · rw [← hlen1]
        exact hh2 c hm
    | panic s2 =>
      rw [hrest] at h
      cases h
    | spin s2 =>
      rw [hrest] at h
      cases h

/-- C22: for every capacity `c` (in particular `c > 0`) and every sequence of
byte slices each of length at most `c`, passed to successive `Write` calls on a
new `TBufferedTransport` and followed by one `Flush`, over an underlying
transport whose `Write` never fails and accepts between 1 and `len(slice)`
bytes of every non-empty slice and whose `Flush` never fails: every call
returns, each `Write` returns `(len(slice), nil)` and the `Flush` nil, no
underlying `Write` is handed more than `c` bytes, and the underlying transport
has received exactly the concatenation of the slices, in order. -/
theorem C22_writes_within_capacity (T : TTransport σ ε) (hA : WriteAccepts T)
    (hF : FlushNeverFails T) (trans : σ) (c : Nat) (bs : List (List Byte))
    (hbs : ∀ b ∈ bs, b.length ≤ c) (fuel : Nat) (hf : c ≤ fuel)
    (p : TBufferedTransport σ ε) (hp : NewTBufferedTransport trans (c : Int) = some p) :
    ∃ q : TBufferedTransport σ ε,
      writeAllFlush T fuel p bs =
        .ret (bs.map (fun b => ((b.length : Int), none)), none) q ∧
      (∀ call ∈ q.calls, call.handedAtMost c = true) ∧
      sent q.calls = bs.flatten := by
  rw [New_eq_fresh] at hp
  cases hp
  have hok : (fresh trans c : TBufferedTransport σ ε).wbuf.ok := by
    simp [fresh, TBuffer.ok]
  have hc : (fresh trans c : TBufferedTransport σ ε).wbuf.buffer.length = c := by simp [fresh]
  have hlim : (fresh trans c : TBufferedTransport σ ε).wbuf.limit =
      ((fresh trans c : TBufferedTransport σ ε).wbuf.buffer.length : Int) := by simp [fresh]
  obtain ⟨rs, q1, hrun, hok1, hlen1, _, _, _, _, hs1, hall⟩ :=
    writeAll_accepts T hA fuel bs (fresh trans c) hok hlim (by omega)
  obtain ⟨hrs, hparts⟩ := hall (fun b hb => by rw [hc]; exact hbs b hb)
  obtain ⟨cs1, hcs1, hh1⟩ :=
    writeAll_handed T hA fuel bs (fresh trans c) hok hlim (by omega) rs q1 hrun
  obtain ⟨h0, h1, h2⟩ := hok1
  obtain ⟨k, hk⟩ := Int.eq_ofNat_of_zero_le h0
  obtain ⟨ws, s, _, _, hsent, hfl⟩ := Flush_accepts T hA q1 k fuel hk (by omega) (by omega)
  obtain ⟨cs2, hcs2, hh2⟩ := flushLoop_handed T fuel 0 q1
  have hcs2f : (Flush T fuel q1).state.calls = q1.calls ++ cs2 := hcs2
  rw [hfl] at hcs2f
  simp only [Res.state] at hcs2f
  refine ⟨{ q1 with
      tp := (T.Flush s).2
      wbuf := { q1.wbuf with pos := 0 }
      calls := q1.calls ++ ws ++ [Call.Flush (T.Flush s).1] }, ?_, ?_, ?_⟩
  · simp only [writeAllFlush, hrun, hfl, hF s, hrs]
  · intro call hcall
    rw [hcs2f, hcs1] at hcall
    simp only [fresh, List.nil_append] at hcall
    rcases List.mem_append.1 hcall with hm | hm
    · rw [← hc]
      exact hh1 call hm
    · rw [← hc, ← hlen1]
      exact hh2 call hm
  · have hpend : pending q1 = q1.wbuf.buffer.take k := by simp [pending, hk]
    have hstream : sent q1.calls ++ sent ws = bs.flatten := by
      rw [hsent, ← hpend, hs1, hparts]
      simp [fresh, pending, sent]
    simp [sent_append, sent, accepted, hstream]

/-- C22 at capacity 4 over a transport taking 2 bytes per write, for the slices
1,2,3 then 4,5 then 6,7,8,9. -/
theorem C22_writes_within_capacity_witness :
    ∃ q : TBufferedTransport (List Byte) Nat,
      writeAllFlush (steady 1) 4 (fresh [] 4) demoSlices =
        .ret (demoSlices.map (fun b => ((b.length : Int), none)), none) q ∧
      (∀ call ∈ q.calls, call.handedAtMost 4 = true) ∧
      sent q.calls = demoSlices.flatten :=
  C22_writes_within_capacity (steady 1) (steady_accepts 1) (fun _ => rfl) [] 4 demoSlices
    (by decide) 4 (le_refl 4) (fresh [] 4) (New_eq_fresh [] 4)

end Thrift
